import Mathlib

/-!
GoRedis: the sorted set stored in an ordered key-value store.

A shallow embedding of `goredis_server/libs/levelredis/level_zset.go` and of the handler
`OnHMSET` of `goredis_server/go_redis_server_hash.go`.

* Byte strings are lists of naturals (a byte is a value below 256).
* The store is the list of its entries in ascending key order; a write batch is a
  list of puts and deletes applied in order.
* A Go panic (slice bound or index out of range) is the result `none`.
* The callbacks handed to the store iterators mutate captured variables; here a
  callback is a function from the captured state to the new state and the quit flag.
-/

namespace GoRedis

/-- A Go byte slice or string. -/
abbrev Bytes := List Nat

/-! ## Byte-string helpers of the Go standard library -/

/-- The function `bytes.Compare`: -1, 0 or 1 for less, equal, greater in
byte-lexicographic order. -/
def bytesCompare : Bytes → Bytes → Int
  | [], [] => 0
  | [], _ :: _ => -1
  | _ :: _, [] => 1
  | a :: as, b :: bs => if a < b then -1 else if b < a then 1 else bytesCompare as bs

/-- The function `bytes.LastIndex` for a one-byte separator: the index of the last
occurrence of `b`, or -1. -/
def lastIndex : Bytes → Nat → Int
  | [], _ => -1
  | x :: xs, b =>
    let r := lastIndex xs b
    if 0 ≤ r then r + 1 else if x = b then 0 else -1

/-- The function `bytes.HasPrefix`. -/
def hasPrefix : Bytes → Bytes → Bool
  | _, [] => true
  | [], _ :: _ => false
  | x :: xs, p :: ps => x == p && hasPrefix xs ps

/-- A Go slice expression `s[lo:hi]`; `none` is the run-time panic for bounds out of
range. -/
def goSlice (s : Bytes) (lo hi : Int) : Option Bytes :=
  if 0 ≤ lo ∧ lo ≤ hi ∧ hi ≤ (s.length : Int) then
    some ((s.take hi.toNat).drop lo.toNat)
  else none

/-! ## Constants and helpers declared elsewhere in the repository -/

/-- The key-layout constants. They are declared outside the translated file, so they
are a parameter. `SEP` is one byte: `splitScoreKey` steps over it with `+1`. -/
structure Consts where
  KEY_PREFIX : Bytes
  ZSET_PREFIX : Bytes
  ZSET_SUFFIX : Bytes
  SEP_LEFT : Bytes
  SEP_RIGHT : Bytes
  SEP : Nat
  deriving DecidableEq, Repr

/-- Sample constants. The comment above `splitScoreKey`,
`_z[user_rank]s#1378000907596#100428`, shows `ZSET_PREFIX`, `SEP_LEFT`, `SEP_RIGHT` and
`SEP` as `_z`, `[`, `]` and `#`; `KEY_PREFIX` and `ZSET_SUFFIX` appear nowhere in the
translated file, `+` and `zset` stand for them in the examples. -/
def stdConsts : Consts where
  KEY_PREFIX := [0x2b]
  ZSET_PREFIX := [0x5f, 0x7a]
  ZSET_SUFFIX := [0x7a, 0x73, 0x65, 0x74]
  SEP_LEFT := [0x5b]
  SEP_RIGHT := [0x5d]
  SEP := 0x23

/-- The sentinel `MAXBYTE`, greater than or equal to any byte. -/
def MAXBYTE : Nat := 0xFF

/-- The helper `joinStringBytes`: the concatenation of its arguments. -/
def joinStringBytes (parts : List Bytes) : Bytes := parts.flatten

/-- The helper `joinBytes`: the concatenation of its arguments. -/
def joinBytes (parts : List Bytes) : Bytes := parts.flatten

/-- The helper `copyBytes`: a fresh copy with the same contents. -/
def copyBytes (b : Bytes) : Bytes := b

/-- Modelled from the spec: `Int64ToBytes` is not in the translated file; a score is
a "fixed-width signed 64-bit big-endian byte string", so the encoder writes the eight
bytes of the two's-complement value, most significant first. -/
def Int64ToBytes (i : Int) : Bytes :=
  let u := (i % 18446744073709551616).toNat
  [u / 72057594037927936 % 256, u / 281474976710656 % 256, u / 1099511627776 % 256,
   u / 4294967296 % 256, u / 16777216 % 256, u / 65536 % 256, u / 256 % 256, u % 256]

/-- The unsigned big-endian value of a byte string, modulo 2^64. -/
def bytesToUint64 (b : Bytes) : Nat :=
  b.foldl (fun acc x => (acc * 256 + x) % 18446744073709551616) 0

/-- The unsigned big-endian value of a byte string. -/
def beValue : Bytes → Nat
  | [] => 0
  | x :: xs => x * 256 ^ xs.length + beValue xs

/-- Modelled from the spec: `BytesToInt64` is not in the translated file; it reads the
big-endian two's-complement value of the score bytes as a signed 64-bit integer. -/
def BytesToInt64 (b : Bytes) : Int :=
  let u := bytesToUint64 b
  if u < 9223372036854775808 then (u : Int) else (u : Int) - 18446744073709551616

/-- The signed 64-bit value of an integer after wrapping modulo 2^64, as an addition of
Go's `int64`, or of Go's `int` on a 64-bit platform, yields it. -/
def wrapInt64 (i : Int) : Int :=
  (i + 9223372036854775808) % 18446744073709551616 - 9223372036854775808

/-! ## The ordered store -/

/-- The entries of the store, in ascending key order. -/
abbrev Store := List (Bytes × Bytes)

/-- One operation of a write batch. -/
inductive BatchOp where
  | put (k v : Bytes)
  | delete (k : Bytes)
  deriving DecidableEq, Repr

/-- Scan direction of an iterator. -/
inductive IterDirection where
  | IteratorForward
  | IteratorBackward
  deriving DecidableEq, Repr

/-- Modelled from the spec: `get(k) -> optional bytes` of the store adapter. -/
def Store.get : Store → Bytes → Option Bytes
  | [], _ => none
  | (k1, v1) :: rest, k => if k1 = k then some v1 else Store.get rest k

/-- Modelled from the spec: a `put(k,v)` of a write batch; the entry is placed at its
position in key order and replaces an entry with the same key. -/
def Store.put : Store → Bytes → Bytes → Store
  | [], k, v => [(k, v)]
  | (k1, v1) :: rest, k, v =>
    if bytesCompare k k1 = -1 then (k, v) :: (k1, v1) :: rest
    else if k = k1 then (k, v) :: rest
    else (k1, v1) :: Store.put rest k v

/-- Modelled from the spec: a `delete(k)` of a write batch. -/
def Store.delete (s : Store) (k : Bytes) : Store :=
  s.filter (fun e => !decide (e.1 = k))

/-- The effect of one batch operation. -/
def Store.apply (s : Store) : BatchOp → Store
  | .put k v => s.put k v
  | .delete k => s.delete k

/-- Modelled from the spec: `write_batch(ops)`, the operations applied atomically
and in order. -/
def Store.write (s : Store) (batch : List BatchOp) : Store :=
  batch.foldl Store.apply s

/-- The keys of the store, in order. -/
def Store.keys (s : Store) : List Bytes := s.map Prod.fst

/-- The entries in the order an iterator of the given direction meets them. -/
def inDirection (direction : IterDirection) (entries : Store) : Store :=
  match direction with
  | .IteratorForward => entries
  | .IteratorBackward => entries.reverse

/-- The visiting loop of an iterator: the callback gets the visit index, the key and
the value, and returns the new captured state and the quit flag; a set quit flag ends
the scan. -/
def visitAll {σ : Type} (fn : Int → Bytes → Bytes → σ → σ × Bool) :
    Store → Int → σ → σ
  | [], _, st => st
  | (k, v) :: rest, i, st =>
    match fn i k v st with
    | (st1, true) => st1
    | (st1, false) => visitAll fn rest (i + 1) st1

/-- Modelled from the spec: `iterate_prefix(p, direction, visit)` visits every entry
whose key starts with `p`, in the given direction, with a visit index counting from 0
and a quit flag. -/
def PrefixEnumerate {σ : Type} (s : Store) (pfx : Bytes) (direction : IterDirection)
    (fn : Int → Bytes → Bytes → σ → σ × Bool) (init : σ) : σ :=
  visitAll fn (inDirection direction (s.filter (fun e => hasPrefix e.1 pfx))) 0 init

/-- Modelled from the spec: `iterate_range(lo, hi, direction, visit)` visits every
entry with `lo ≤ k ≤ hi`. -/
def Enumerate {σ : Type} (s : Store) (min max : Bytes) (direction : IterDirection)
    (fn : Int → Bytes → Bytes → σ → σ × Bool) (init : σ) : σ :=
  visitAll fn (inDirection direction
    (s.filter (fun e => decide (bytesCompare min e.1 ≤ 0) && decide (bytesCompare e.1 max ≤ 0))))
    0 init

/-! ## The sorted set `LevelZSet`

Every operation takes the constants, the logical key of the handle (`l.key`) and the
store, and returns its result together with the store after its write. -/

/-- The key of the existence record. -/
def zsetKey (c : Consts) (key : Bytes) : Bytes :=
  joinStringBytes [c.KEY_PREFIX, c.SEP_LEFT, key, c.SEP_RIGHT, c.ZSET_SUFFIX]

/-- The value of the existence record. -/
def zsetValue : Bytes := []

/-- The member-index key of a member; `"m"` is the byte 0x6d. -/
def memberKey (c : Consts) (key member : Bytes) : Bytes :=
  joinStringBytes [c.ZSET_PREFIX, c.SEP_LEFT, key, c.SEP_RIGHT, [0x6d], [c.SEP], member]

/-- The score-index key of a member and its score; `"s"` is the byte 0x73 and the sign
is `"0"` (0x30) for a negative score, `"1"` (0x31) otherwise. -/
def scoreKey (c : Consts) (key member score : Bytes) : Bytes :=
  let scoreint := BytesToInt64 score
  let sign : Bytes := if scoreint < 0 then [0x30] else [0x31]
  joinStringBytes
    [c.ZSET_PREFIX, c.SEP_LEFT, key, c.SEP_RIGHT, [0x73], [c.SEP], sign, score, [c.SEP], member]

/-- The common start of all score-index keys of the sorted set. -/
def scoreKeyPrefix (c : Consts) (key : Bytes) : Bytes :=
  joinStringBytes [c.ZSET_PREFIX, c.SEP_LEFT, key, c.SEP_RIGHT, [0x73], [c.SEP]]

/-- The decoder of a score-index key, split at the last two separators. The result is
`(score, member)`; `none` is a slice-bounds panic. -/
def splitScoreKey (c : Consts) (scorekey : Bytes) : Option (Bytes × Bytes) :=
  let pos2 := lastIndex scorekey c.SEP
  match goSlice scorekey 0 pos2 with
  | none => none
  | some head =>
    let pos1 := lastIndex head c.SEP
    match goSlice scorekey (pos2 + 1) scorekey.length with
    | none => none
    | some member =>
      match goSlice scorekey (pos1 + 1 + 1) pos2 with
      | none => none
      | some score => some (copyBytes score, copyBytes member)

/-- The loop of `Add` over the argument list `score, member, score, member, ...`: the
batch and the count after the pairs; `none` is the index panic on a dangling score. -/
def addLoop (c : Consts) (key : Bytes) (s : Store) :
    List Bytes → List BatchOp → Int → Option (List BatchOp × Int)
  | [], batch, n => some (batch, n)
  | [_], _, _ => none
  | score :: member :: rest, batch, n =>
    let memberkey := memberKey c key member
    let batch1 :=
      match s.get memberkey with
      | some oldscore => batch ++ [BatchOp.delete (scoreKey c key member oldscore)]
      | none => batch
    let batch2 := batch1 ++ [BatchOp.put memberkey score]
    let batch3 := batch2 ++ [BatchOp.put (scoreKey c key member score) []]
    addLoop c key s rest batch3 (n + 1)

/-- The operation `Add`: the store after the write and the returned count. -/
def Add (c : Consts) (key : Bytes) (s : Store) (scoreMembers : List Bytes) :
    Option (Store × Int) :=
  match addLoop c key s scoreMembers [] 0 with
  | none => none
  | some (batch, n) =>
    some (s.write (batch ++ [BatchOp.put (zsetKey c key) zsetValue]), n)

/-- The helper `score`: a point read of the member index. -/
def score (c : Consts) (key : Bytes) (s : Store) (member : Bytes) : Option Bytes :=
  s.get (memberKey c key member)

/-- The operation `Score`. -/
def Score (c : Consts) (key : Bytes) (s : Store) (member : Bytes) : Option Bytes :=
  score c key s member

/-- The operation `IncrBy`: the store after the write and the new score. -/
def IncrBy (c : Consts) (key : Bytes) (s : Store) (member : Bytes) (incr : Int) :
    Store × Bytes :=
  match score c key s member with
  | none =>
    let newscore := Int64ToBytes incr
    (s.write [BatchOp.put (memberKey c key member) newscore,
              BatchOp.put (scoreKey c key member newscore) []], newscore)
  | some sc =>
    let scoreInt := BytesToInt64 sc
    let newscore := Int64ToBytes (scoreInt + incr)
    (s.write [BatchOp.delete (scoreKey c key member sc),
              BatchOp.put (memberKey c key member) newscore,
              BatchOp.put (scoreKey c key member newscore) []], newscore)

/-- The iterator direction of a scan. -/
def directionOf (high2low : Bool) : IterDirection :=
  if high2low then IterDirection.IteratorBackward else IterDirection.IteratorForward

/-- The callback of `Rank`; the captured state is `idx`, and `none` is a panic of the
decoder. -/
def rankVisit (c : Consts) (high2low : Bool) (member : Bytes) :
    Int → Bytes → Bytes → Option Int → Option Int × Bool :=
  fun i k _ st =>
    match st with
    | none => (none, true)
    | some idx =>
      match splitScoreKey c k with
      | none => (none, true)
      | some (_, curmember) =>
        let rtn := bytesCompare member curmember
        if rtn = 0 then (some i, true)
        else if high2low ∧ rtn > 0 then (some idx, true)
        else if ¬ high2low ∧ rtn < 0 then (some idx, true)
        else (some idx, false)

/-- The operation `Rank`; -1 stands for a member that does not exist. -/
def Rank (c : Consts) (key : Bytes) (s : Store) (high2low : Bool) (member : Bytes) :
    Option Int :=
  if (score c key s member).isNone then some (-1)
  else
    PrefixEnumerate s (scoreKeyPrefix c key) (directionOf high2low)
      (rankVisit c high2low member) (some (-1))

/-- The callback of `RangeByIndex`; the captured state is `scoreMembers`. -/
def rangeByIndexVisit (c : Consts) (start stop : Int) :
    Int → Bytes → Bytes → Option (List Bytes) → Option (List Bytes) × Bool :=
  fun i k _ st =>
    match st with
    | none => (none, true)
    | some scoreMembers =>
      if i < start then (some scoreMembers, false)
      else if i ≥ start ∧ (stop = -1 ∨ i ≤ stop) then
        match splitScoreKey c k with
        | none => (none, true)
        | some (sc, member) => (some ((scoreMembers ++ [sc]) ++ [member]), false)
      else (some scoreMembers, true)

/-- The operation `RangeByIndex`: the flat list `score, member, score, member, ...`. -/
def RangeByIndex (c : Consts) (key : Bytes) (s : Store) (high2low : Bool)
    (start stop : Int) : Option (List Bytes) :=
  PrefixEnumerate s (scoreKeyPrefix c key) (directionOf high2low)
    (rangeByIndexVisit c start stop) (some [])

/-- The callback of `RangeByScore`. The bound `offset+count` is a sum of two Go `int`s,
which wraps around at 64 bits. -/
def rangeByScoreVisit (c : Consts) (offset count : Int) :
    Int → Bytes → Bytes → Option (List Bytes) → Option (List Bytes) × Bool :=
  fun i k _ st =>
    match st with
    | none => (none, true)
    | some scoreMembers =>
      if i < offset then (some scoreMembers, false)
      else if count ≠ -1 ∧ i ≥ wrapInt64 (offset + count) then (some scoreMembers, true)
      else
        match splitScoreKey c k with
        | none => (none, true)
        | some (sc, member) => (some ((scoreMembers ++ [sc]) ++ [member]), false)

/-- The operation `RangeByScore`. -/
def RangeByScore (c : Consts) (key : Bytes) (s : Store) (high2low : Bool)
    (min max : Bytes) (offset count : Int) : Option (List Bytes) :=
  let min2 := joinBytes [scoreKeyPrefix c key, min]
  let max2 := joinBytes [scoreKeyPrefix c key, max, [MAXBYTE]]
  Enumerate s min2 max2 (directionOf high2low) (rangeByScoreVisit c offset count) (some [])

/-- The function `isEmpty`: its first statement is `return false`, the scan after it
is never reached. -/
def isEmpty (_c : Consts) (_key : Bytes) (_s : Store) : Bool := false

/-- The loop of `Remove` over the members: the batch and the count. -/
def removeLoop (c : Consts) (key : Bytes) (s : Store) :
    List Bytes → List BatchOp → Int → List BatchOp × Int
  | [], batch, n => (batch, n)
  | member :: rest, batch, n =>
    match s.get (memberKey c key member) with
    | none => removeLoop c key s rest batch n
    | some sc =>
      removeLoop c key s rest
        ((batch ++ [BatchOp.delete (memberKey c key member)]) ++
          [BatchOp.delete (scoreKey c key member sc)]) (n + 1)

/-- The operation `Remove`: the store after the write and the count. The delete of the
existence record is put into the batch after the batch was written, and the batch is
closed without another write. -/
def Remove (c : Consts) (key : Bytes) (s : Store) (members : List Bytes) : Store × Int :=
  let (batch, n) := removeLoop c key s members [] 0
  let s1 := s.write batch
  let _closed := if isEmpty c key s1 then batch ++ [BatchOp.delete (zsetKey c key)] else batch
  (s1, n)

/-- The callback of `RemoveByIndex`; the captured state is the batch and `n`. -/
def removeByIndexVisit (c : Consts) (key : Bytes) (start stop : Int) :
    Int → Bytes → Bytes → Option (List BatchOp × Int) → Option (List BatchOp × Int) × Bool :=
  fun i k _ st =>
    match st with
    | none => (none, true)
    | some (batch, n) =>
      if i < start then (some (batch, n), false)
      else if i ≥ start ∧ (stop = -1 ∨ i ≤ stop) then
        match splitScoreKey c k with
        | none => (none, true)
        | some (sc, member) =>
          (some ((batch ++ [BatchOp.delete (memberKey c key member)]) ++
            [BatchOp.delete (scoreKey c key member sc)], n + 1), false)
      else (some (batch, n), true)

/-- The operation `RemoveByIndex`. -/
def RemoveByIndex (c : Consts) (key : Bytes) (s : Store) (start stop : Int) :
    Option (Store × Int) :=
  match PrefixEnumerate s (scoreKeyPrefix c key) IterDirection.IteratorForward
      (removeByIndexVisit c key start stop) (some ([], 0)) with
  | none => none
  | some (batch, n) =>
    let s1 := s.write batch
    let _closed := if isEmpty c key s1 then batch ++ [BatchOp.delete (zsetKey c key)] else batch
    some (s1, n)

/-- The callback of `RemoveByScore`. -/
def removeByScoreVisit (c : Consts) (key : Bytes) :
    Int → Bytes → Bytes → Option (List BatchOp × Int) → Option (List BatchOp × Int) × Bool :=
  fun _ k _ st =>
    match st with
    | none => (none, true)
    | some (batch, n) =>
      match splitScoreKey c k with
      | none => (none, true)
      | some (sc, member) =>
        (some ((batch ++ [BatchOp.delete (memberKey c key member)]) ++
          [BatchOp.delete (scoreKey c key member sc)], n + 1), false)

/-- The operation `RemoveByScore`. -/
def RemoveByScore (c : Consts) (key : Bytes) (s : Store) (min max : Bytes) :
    Option (Store × Int) :=
  let min2 := joinBytes [scoreKeyPrefix c key, min]
  let max2 := joinBytes [scoreKeyPrefix c key, max, [MAXBYTE]]
  match Enumerate s min2 max2 IterDirection.IteratorForward
      (removeByScoreVisit c key) (some ([], 0)) with
  | none => none
  | some (batch, n) =>
    let s1 := s.write batch
    let _closed := if isEmpty c key s1 then batch ++ [BatchOp.delete (zsetKey c key)] else batch
    some (s1, n)

/-- The callback of `len`; the captured state is `n`. -/
def lenVisit : Int → Bytes → Bytes → Int → Int × Bool :=
  fun _ _ _ n =>
    let n1 := n + 1
    if n1 > 100 then (-1, true) else (n1, false)

/-- The function `len`: the exact count up to 100, else -1. -/
def len (c : Consts) (key : Bytes) (s : Store) : Int :=
  PrefixEnumerate s (scoreKeyPrefix c key) IterDirection.IteratorForward lenVisit 0

/-- The operation `Len`. -/
def Len (c : Consts) (key : Bytes) (s : Store) : Int := len c key s

/-- The start of every key of the sorted set, `ZSET_PREFIX SEP_LEFT key SEP_RIGHT`. -/
def dropPrefix (c : Consts) (key : Bytes) : Bytes :=
  joinStringBytes [c.ZSET_PREFIX, c.SEP_LEFT, key, c.SEP_RIGHT]

/-- The callback of `Drop`; the captured state is the batch. -/
def dropVisit : Int → Bytes → Bytes → List BatchOp → List BatchOp × Bool :=
  fun _ k _ batch => (batch ++ [BatchOp.delete k], false)

/-- The operation `Drop`: the store after the write and `ok`. -/
def Drop (c : Consts) (key : Bytes) (s : Store) : Store × Bool :=
  let batch := PrefixEnumerate s (dropPrefix c key) IterDirection.IteratorForward dropVisit []
  let batch1 := batch ++ [BatchOp.delete (zsetKey c key)]
  (s.write batch1, true)

/-! ## Concrete values used in the examples -/

/-- The logical key `z`. -/
def kZ : Bytes := [0x7a]

/-- The member `a`. -/
def mA : Bytes := [0x61]

/-- The member `b`. -/
def mB : Bytes := [0x62]

/-- The member `x`. -/
def mX : Bytes := [0x78]

/-- The argument list `score, member, score, member, ...` of a list of pairs. -/
def flatPairs : List (Bytes × Bytes) → List Bytes
  | [] => []
  | (sc, member) :: rest => sc :: member :: flatPairs rest

/-- The batch operations `Add` collects for one pair: the delete of the score-index
entry of the score read from the store, and the two puts. -/
def addOps (c : Consts) (key : Bytes) (s : Store) (p : Bytes × Bytes) : List BatchOp :=
  (match s.get (memberKey c key p.2) with
    | some oldscore => [BatchOp.delete (scoreKey c key p.2 oldscore)]
    | none => []) ++
  [BatchOp.put (memberKey c key p.2) p.1, BatchOp.put (scoreKey c key p.2 p.1) []]

/-- The constants keep the existence records apart from the sorted-set entries: no key
that starts with `KEY_PREFIX` starts with `ZSET_PREFIX`. -/
def Consts.Separated (c : Consts) : Prop :=
  ∀ x y : Bytes, c.KEY_PREFIX ++ x ≠ c.ZSET_PREFIX ++ y

/-- The store after a sequence of `Add` calls, each given as its list of pairs. -/
def addAll (c : Consts) (key : Bytes) : Store → List (List (Bytes × Bytes)) → Option Store
  | s, [] => some s
  | s, call :: calls =>
    match Add c key s (flatPairs call) with
    | none => none
    | some (s1, _) => addAll c key s1 calls

/-- The order of the sorted set on `(score, member)` pairs: by signed score, then by
member bytes. -/
def pairLt (p q : Bytes × Bytes) : Prop :=
  BytesToInt64 p.1 < BytesToInt64 q.1 ∨
    (BytesToInt64 p.1 = BytesToInt64 q.1 ∧ bytesCompare p.2 q.2 = -1)

/-- The store after `Add` of `1 b` and `2 a` to the empty store. -/
def storeBA : Store :=
  [(zsetKey stdConsts kZ, []),
   (memberKey stdConsts kZ mA, Int64ToBytes 2),
   (memberKey stdConsts kZ mB, Int64ToBytes 1),
   (scoreKey stdConsts kZ mB (Int64ToBytes 1), []),
   (scoreKey stdConsts kZ mA (Int64ToBytes 2), [])]

/-- The store after the batch operations of one pair, the old score read from the
store itself. -/
def addOne (c : Consts) (key : Bytes) (t : Store) (p : Bytes × Bytes) : Store :=
  t.write (addOps c key t p)

/-- A score that is the encoding of a signed 64-bit value and holds no separator
byte. -/
def GoodScore (c : Consts) (sc : Bytes) : Prop :=
  c.SEP ∉ sc ∧
    ∃ v : Int, -9223372036854775808 ≤ v ∧ v < 9223372036854775808 ∧ sc = Int64ToBytes v

/-- A `(score, member)` pair whose score is good and whose member holds no separator
byte. -/
def GoodPair (c : Consts) (p : Bytes × Bytes) : Prop :=
  GoodScore c p.1 ∧ c.SEP ∉ p.2

/-- The entries of the store are in strictly ascending key order. -/
def Store.Sorted (s : Store) : Prop :=
  s.Pairwise (fun a b => bytesCompare a.1 b.1 = -1)

/-- The state of a sorted set whose two indexes agree: the store is in key order, every
score-index key is the key of a pair the member index holds, and every pair of the member
index is good and has its score-index key. -/
structure ZInv (c : Consts) (key : Bytes) (s : Store) : Prop where
  sorted : s.Sorted
  scoreIndex : ∀ k ∈ s.keys, hasPrefix k (scoreKeyPrefix c key) = true →
    ∃ sc member, k = scoreKey c key member sc ∧ s.get (memberKey c key member) = some sc
  memberIndex : ∀ member sc, s.get (memberKey c key member) = some sc →
    GoodPair c (sc, member) ∧ scoreKey c key member sc ∈ s.keys

/-- The pairs the decoder reads from the keys of a list of entries. -/
def decodedPairs (c : Consts) (l : Store) : List (Bytes × Bytes) :=
  l.map (fun e => (splitScoreKey c e.1).getD ([], []))

/-- The entries of a scan whose visit index, counted from `i` on, satisfies `p`, in scan
order. -/
def keepIndices {α : Type} (p : Int → Bool) : List α → Int → List α
  | [], _ => []
  | e :: rest, i =>
    if p i then e :: keepIndices p rest (i + 1) else keepIndices p rest (i + 1)

/-- The decoder applied to every entry of a list, in order; `none` when it panics on
one of them. -/
def decodeAll (c : Consts) : Store → Option (List (Bytes × Bytes))
  | [] => some []
  | e :: rest =>
    match splitScoreKey c e.1 with
    | none => none
    | some p =>
      match decodeAll c rest with
      | none => none
      | some ps => some (p :: ps)

/-- The window of `RangeByIndex` in the words of its contract: the entries whose
zero-based visit index `i` satisfies `max(start, 0) ≤ i` and `stop = -1` or `i ≤ stop`. -/
def indexWindow (start stop : Int) (visited : Store) : Store :=
  keepIndices (fun i => decide (max start 0 ≤ i) && (decide (stop = -1) || decide (i ≤ stop)))
    visited 0

/-- The window of `RangeByScore` in the words of its contract: the first `offset`
entries skipped, then at most `count` entries kept, all of them when `count = -1`. -/
def scoreWindow (offset count : Int) (visited : Store) : Store :=
  if count = -1 then visited.drop offset.toNat
  else (visited.drop offset.toNat).take count.toNat

/-- The member `#b`, which begins with the separator byte. -/
def mSepB : Bytes := [0x23, 0x62]

/-! ## The hash command adapter `go_redis_server_hash.go` -/

/-- A decoded protocol command: its arguments, the command name first. The type is
declared in the protocol package, outside the translated files. -/
structure Command where
  Args : List Bytes
  deriving DecidableEq, Repr

/-- A protocol reply, by its constructor in the protocol package. -/
inductive Reply where
  | ErrorReply (msg : String)
  | StatusReply (msg : String)
  | IntegerReply (n : Int)
  | BulkReply (v : Option Bytes)
  deriving DecidableEq, Repr

/-- A hash handle as `NewLevelHash(db, key)` makes it: it is told apart by its storage
key; the store is the one of the server. -/
structure LevelHash where
  key : Bytes
  deriving DecidableEq, Repr

/-- The part of the server the hash commands use: the handle registry `hashtable` and
the store behind `datasource.DB()`. -/
structure GoRedisServer where
  hashtable : List (Bytes × LevelHash)
  db : Store
  deriving DecidableEq, Repr

/-- What a command does to the registry and to a handle, in the order it does it. -/
inductive Effect where
  | hashtableLookup (key : Bytes)
  | hashtableInsert (key : Bytes) (hash : LevelHash)
  | hashSet (hash : LevelHash) (keyvals : List Bytes)
  deriving DecidableEq, Repr

/-- Modelled from the spec: `StringAtIndex` belongs to the protocol package; the command
adapter "decodes the logical key" with it, the argument at the index, empty when the
command is shorter. -/
def Command.StringAtIndex (cmd : Command) (i : Nat) : Bytes :=
  cmd.Args.getD i []

/-- The string `__hash:` that `hashByKey` puts before the key. -/
def hashKeyPrefix : Bytes := [0x5f, 0x5f, 0x68, 0x61, 0x73, 0x68, 0x3a]

/-- The lookup in the map `hashtable`. -/
def lookupHash : List (Bytes × LevelHash) → Bytes → Option LevelHash
  | [], _ => none
  | (k, h) :: rest, key => if k = key then some h else lookupHash rest key

/-- The function `hashByKey`: the handle of the key, created and registered when the
registry has none; with the server after the call and the effects on the registry. -/
def hashByKey (server : GoRedisServer) (key : Bytes) :
    GoRedisServer × LevelHash × List Effect :=
  match lookupHash server.hashtable key with
  | some hash => (server, hash, [Effect.hashtableLookup key])
  | none =>
    let hash : LevelHash := ⟨hashKeyPrefix ++ key⟩
    (⟨(key, hash) :: server.hashtable, server.db⟩, hash,
      [Effect.hashtableLookup key, Effect.hashtableInsert key hash])

/-- The handler `OnHMSET`. The method `Set` of the hash handle is declared outside the
translated files and is the parameter `hashSet`; `none` is the panic of `cmd.Args[2:]`
on a command without a key. The result is the server after the call, the reply and the
effects. -/
def OnHMSET (hashSet : LevelHash → List Bytes → Store → Store) (server : GoRedisServer)
    (cmd : Command) : Option (GoRedisServer × Reply × List Effect) :=
  let key := cmd.StringAtIndex 1
  if cmd.Args.length < 2 then none
  else
    let keyvals := cmd.Args.drop 2
    if keyvals.length % 2 ≠ 0 then
      some (server, Reply.ErrorReply "Bad field/value paires", [])
    else
      match hashByKey server key with
      | (server1, hash, effects) =>
        some (⟨server1.hashtable, hashSet hash keyvals server1.db⟩, Reply.StatusReply "OK",
          effects ++ [Effect.hashSet hash keyvals])

/-- A sample `Set`: every field is stored under the handle key followed by the field. -/
def sampleHashSet : LevelHash → List Bytes → Store → Store
  | _, [], s => s
  | _, [_], s => s
  | h, f :: v :: rest, s => sampleHashSet h rest (s.put (h.key ++ f) v)

/-- The logical key `y`. -/
def kY : Bytes := [0x79]

/-- The store after `Add 1 b 2 a` on the key `z` and `Add 7 x` on the key `y`. -/
def storeZY : Store :=
  ((Add stdConsts kY storeBA [Int64ToBytes 7, mX]).map Prod.fst).getD []

/-! ## Byte-lexicographic order -/

theorem bytesCompare_self (a : Bytes) : bytesCompare a a = 0 := by
  induction a with
  | nil => rfl
  | cons x xs ih => simp [bytesCompare, ih]

theorem bytesCompare_eq_zero {a b : Bytes} (h : bytesCompare a b = 0) : a = b := by
  induction a generalizing b with
  | nil => cases b with
    | nil => rfl
    | cons y ys => simp [bytesCompare] at h
  | cons x xs ih => cases b with
    | nil => simp [bytesCompare] at h
    | cons y ys =>
      simp only [bytesCompare] at h
      split_ifs at h with h1 h2
      · omega
      · have hxy : x = y := by omega
        rw [hxy, ih h]

theorem bytesCompare_range (a b : Bytes) :
    bytesCompare a b = -1 ∨ bytesCompare a b = 0 ∨ bytesCompare a b = 1 := by
  induction a generalizing b with
  | nil => cases b <;> simp [bytesCompare]
  | cons x xs ih => cases b with
    | nil => simp [bytesCompare]
    | cons y ys =>
      simp only [bytesCompare]
      split_ifs
      · simp
      · simp
      · exact ih ys

theorem bytesCompare_swap (a b : Bytes) : bytesCompare b a = - bytesCompare a b := by
  induction a generalizing b with
  | nil => cases b <;> simp [bytesCompare]
  | cons x xs ih => cases b with
    | nil => simp [bytesCompare]
    | cons y ys =>
      simp only [bytesCompare]
      split_ifs <;> first | omega | rfl | exact ih ys

theorem bytesCompare_append_left (p a b : Bytes) :
    bytesCompare (p ++ a) (p ++ b) = bytesCompare a b := by
  induction p with
  | nil => rfl
  | cons x xs ih => simp [bytesCompare, ih]

theorem bytesCompare_append_of_lt {a b : Bytes} (x y : Bytes)
    (h : bytesCompare a b = -1) (hl : a.length = b.length) :
    bytesCompare (a ++ x) (b ++ y) = -1 := by
  induction a generalizing b with
  | nil => cases b with
    | nil => simp [bytesCompare] at h
    | cons y ys => simp at hl
  | cons u us ih => cases b with
    | nil => simp at hl
    | cons v vs =>
      simp only [bytesCompare, List.cons_append] at h ⊢
      split_ifs at h ⊢ with h1 h2
      · rfl
      · exact ih h (by simpa using hl)

theorem bytesCompare_trans {a b d : Bytes} (h1 : bytesCompare a b = -1)
    (h2 : bytesCompare b d = -1) : bytesCompare a d = -1 := by
  induction a generalizing b d with
  | nil => cases b with
    | nil => simp [bytesCompare] at h1
    | cons y ys => cases d with
      | nil => simp [bytesCompare] at h2
      | cons z zs => rfl
  | cons x xs ih => cases b with
    | nil => simp [bytesCompare] at h1
    | cons y ys => cases d with
      | nil => simp [bytesCompare] at h2
      | cons z zs =>
        simp only [bytesCompare] at h1 h2 ⊢
        split_ifs at h1 h2 ⊢ with g1 g2 g3 g4 g5 g6 <;>
          first | rfl | omega | exact ih h1 h2

/-! ## The score encoding -/

theorem beValue_lt (a : Bytes) (ha : ∀ x ∈ a, x < 256) : beValue a < 256 ^ a.length := by
  induction a with
  | nil => simp [beValue]
  | cons x xs ih =>
    have h1 : x < 256 := ha x (by simp)
    have h2 := ih (fun y hy => ha y (by simp [hy]))
    simp only [beValue, List.length_cons, pow_succ]
    have h3 : (x + 1) * 256 ^ xs.length ≤ 256 * 256 ^ xs.length :=
      Nat.mul_le_mul_right _ (by omega)
    rw [Nat.add_mul] at h3
    omega

theorem bytesCompare_of_beValue_lt {a b : Bytes} (hl : a.length = b.length)
    (ha : ∀ x ∈ a, x < 256) (hb : ∀ x ∈ b, x < 256) (h : beValue a < beValue b) :
    bytesCompare a b = -1 := by
  induction a generalizing b with
  | nil => cases b with
    | nil => simp [beValue] at h
    | cons y ys => simp at hl
  | cons x xs ih => cases b with
    | nil => simp at hl
    | cons y ys =>
      have hl2 : xs.length = ys.length := by simpa using hl
      have hxs := beValue_lt xs (fun z hz => ha z (by simp [hz]))
      have hys := beValue_lt ys (fun z hz => hb z (by simp [hz]))
      simp only [beValue] at h
      rw [hl2] at h hxs
      simp only [bytesCompare]
      split_ifs with h1 h2
      · rfl
      · exfalso
        have h3 : (y + 1) * 256 ^ ys.length ≤ x * 256 ^ ys.length :=
          Nat.mul_le_mul_right _ (by omega)
        rw [Nat.add_mul] at h3
        omega
      · have hxy : x = y := by omega
        subst hxy
        exact ih hl2 (fun z hz => ha z (by simp [hz])) (fun z hz => hb z (by simp [hz]))
          (by omega)

theorem beValue_Int64ToBytes (i : Int) :
    beValue (Int64ToBytes i) = (i % 18446744073709551616).toNat := by
  have hu : (i % 18446744073709551616).toNat < 18446744073709551616 := by omega
  simp only [Int64ToBytes, beValue, List.length_cons, List.length_nil]
  generalize (i % 18446744073709551616).toNat = u at hu ⊢
  norm_num
  omega

theorem Int64ToBytes_byte (i : Int) : ∀ x ∈ Int64ToBytes i, x < 256 := by
  intro x hx
  simp only [Int64ToBytes, List.mem_cons, List.mem_singleton, List.not_mem_nil, or_false] at hx
  omega

theorem Int64ToBytes_length (i : Int) : (Int64ToBytes i).length = 8 := rfl

theorem bytesToUint64_Int64ToBytes (i : Int) :
    bytesToUint64 (Int64ToBytes i) = (i % 18446744073709551616).toNat := by
  have hu : (i % 18446744073709551616).toNat < 18446744073709551616 := by omega
  simp only [Int64ToBytes, bytesToUint64, List.foldl]
  generalize (i % 18446744073709551616).toNat = u at hu ⊢
  omega

theorem BytesToInt64_Int64ToBytes (i : Int) (h1 : -9223372036854775808 ≤ i)
    (h2 : i < 9223372036854775808) : BytesToInt64 (Int64ToBytes i) = i := by
  simp only [BytesToInt64, bytesToUint64_Int64ToBytes]
  split_ifs <;> omega


/-! ## The score-index key -/

theorem bytesCompare_cons_self (x : Nat) (a b : Bytes) :
    bytesCompare (x :: a) (x :: b) = bytesCompare a b := by
  simp [bytesCompare]

theorem scoreKey_eq (c : Consts) (key member sc : Bytes) :
    scoreKey c key member sc =
      scoreKeyPrefix c key ++
        (((if BytesToInt64 sc < 0 then [0x30] else [0x31]) ++ sc) ++ (c.SEP :: member)) := by
  simp [scoreKey, scoreKeyPrefix, joinStringBytes]

theorem signed_score_lt (s1 s2 : Int)
    (h1 : -9223372036854775808 ≤ s1) (h2 : s2 < 9223372036854775808) (h : s1 < s2) :
    bytesCompare ((if BytesToInt64 (Int64ToBytes s1) < 0 then [0x30] else [0x31]) ++ Int64ToBytes s1)
      ((if BytesToInt64 (Int64ToBytes s2) < 0 then [0x30] else [0x31]) ++ Int64ToBytes s2) = -1 := by
  rw [BytesToInt64_Int64ToBytes s1 h1 (by omega), BytesToInt64_Int64ToBytes s2 (by omega) h2]
  have hcmp : ∀ (hsame : (s1 < 0 ↔ s2 < 0)),
      bytesCompare (Int64ToBytes s1) (Int64ToBytes s2) = -1 := by
    intro hsame
    have hl : (Int64ToBytes s1).length = (Int64ToBytes s2).length := rfl
    apply bytesCompare_of_beValue_lt hl (Int64ToBytes_byte s1) (Int64ToBytes_byte s2)
    rw [beValue_Int64ToBytes, beValue_Int64ToBytes]
    omega
  by_cases n1 : s1 < 0 <;> by_cases n2 : s2 < 0
  · rw [if_pos n1, if_pos n2, List.singleton_append, List.singleton_append,
      bytesCompare_cons_self]
    exact hcmp (by simp [n1, n2])
  · rw [if_pos n1, if_neg n2, List.singleton_append, List.singleton_append]
    simp [bytesCompare]
  · omega
  · rw [if_neg n1, if_neg n2, List.singleton_append, List.singleton_append,
      bytesCompare_cons_self]
    exact hcmp (by simp [n1, n2])

theorem scoreKey_lt_of_score_lt (c : Consts) (key m1 m2 : Bytes) (s1 s2 : Int)
    (h1 : -9223372036854775808 ≤ s1) (h2 : s2 < 9223372036854775808) (h : s1 < s2) :
    bytesCompare (scoreKey c key m1 (Int64ToBytes s1))
      (scoreKey c key m2 (Int64ToBytes s2)) = -1 := by
  rw [scoreKey_eq, scoreKey_eq, bytesCompare_append_left]
  apply bytesCompare_append_of_lt _ _ (signed_score_lt s1 s2 h1 h2 h)
  split_ifs <;> rfl

theorem scoreKey_compare_same_score (c : Consts) (key m1 m2 sc : Bytes) :
    bytesCompare (scoreKey c key m1 sc) (scoreKey c key m2 sc) = bytesCompare m1 m2 := by
  rw [scoreKey_eq, scoreKey_eq, bytesCompare_append_left, bytesCompare_append_left]
  simp [bytesCompare]

/-- C1: score-index keys of one logical key are ordered as the signed 64-bit scores
are, for all members; with equal scores they compare as the members do. The two bounds
place both scores of `s1 ≤ s2` in the signed 64-bit range. -/
theorem scoreKey_preserves_order (c : Consts) (key m1 m2 : Bytes) (s1 s2 : Int)
    (h1lo : -9223372036854775808 ≤ s1) (h2hi : s2 < 9223372036854775808) :
    (s1 < s2 →
      bytesCompare (scoreKey c key m1 (Int64ToBytes s1))
        (scoreKey c key m2 (Int64ToBytes s2)) = -1) ∧
    (s1 = s2 →
      bytesCompare (scoreKey c key m1 (Int64ToBytes s1))
        (scoreKey c key m2 (Int64ToBytes s2)) = bytesCompare m1 m2) := by
  constructor
  · exact scoreKey_lt_of_score_lt c key m1 m2 s1 s2 h1lo h2hi
  · intro h
    subst h
    exact scoreKey_compare_same_score c key m1 m2 _

theorem scoreKey_preserves_order_witness :
    (((-2 : Int) < 3 →
      bytesCompare (scoreKey stdConsts kZ mB (Int64ToBytes (-2)))
        (scoreKey stdConsts kZ mA (Int64ToBytes 3)) = -1) ∧
    ((-2 : Int) = 3 →
      bytesCompare (scoreKey stdConsts kZ mB (Int64ToBytes (-2)))
        (scoreKey stdConsts kZ mA (Int64ToBytes 3)) = bytesCompare mB mA)) :=
  scoreKey_preserves_order stdConsts kZ mB mA (-2) 3 (by decide) (by decide)

/-! ## Decoding a score-index key -/

theorem lastIndex_ge (xs : Bytes) (b : Nat) : -1 ≤ lastIndex xs b := by
  induction xs with
  | nil => simp [lastIndex]
  | cons x xs ih =>
    simp only [lastIndex]
    split_ifs <;> omega

theorem lastIndex_of_not_mem {xs : Bytes} {b : Nat} (h : b ∉ xs) : lastIndex xs b = -1 := by
  induction xs with
  | nil => rfl
  | cons x xs ih =>
    have h1 : x ≠ b := fun e => h (by simp [e])
    have h2 : b ∉ xs := fun e => h (by simp [e])
    simp [lastIndex, ih h2, h1]

theorem lastIndex_append_sep (xs ys : Bytes) (b : Nat) (h : b ∉ ys) :
    lastIndex (xs ++ b :: ys) b = xs.length := by
  induction xs with
  | nil => simp [lastIndex, lastIndex_of_not_mem h]
  | cons x xs ih =>
    have e : lastIndex (x :: (xs ++ b :: ys)) b = (xs.length : Int) + 1 := by
      simp only [lastIndex, ih]
      rw [if_pos (by omega)]
    rw [List.cons_append, e, List.length_cons]
    push_cast
    rfl

theorem goSlice_middle (x y z : Bytes) :
    goSlice (x ++ (y ++ z)) x.length (x.length + y.length : Nat) = some y := by
  unfold goSlice
  rw [if_pos]
  · simp only [Int.toNat_ofNat]
    rw [← List.append_assoc, ← List.length_append, List.take_left, List.drop_left]
  · simp only [List.length_append]
    omega

theorem splitScoreKey_parts (b : Nat) (c : Consts) (hb : c.SEP = b) (p mid member : Bytes)
    (x : Nat) (hx : b ≠ x) (hmid : b ∉ mid) (hm : b ∉ member) :
    splitScoreKey c (p ++ (b :: x :: mid) ++ (b :: member)) = some (mid, member) := by
  subst hb
  have hpos2 : lastIndex (p ++ (c.SEP :: x :: mid) ++ (c.SEP :: member)) c.SEP
      = ((p ++ (c.SEP :: x :: mid)).length : Nat) := lastIndex_append_sep _ _ _ hm
  have hhead : goSlice (p ++ (c.SEP :: x :: mid) ++ (c.SEP :: member)) 0
      ((p ++ (c.SEP :: x :: mid)).length : Nat) = some (p ++ (c.SEP :: x :: mid)) := by
    have := goSlice_middle [] (p ++ (c.SEP :: x :: mid)) (c.SEP :: member)
    simpa using this
  have hpos1 : lastIndex (p ++ (c.SEP :: x :: mid)) c.SEP = (p.length : Nat) := by
    apply lastIndex_append_sep
    simp only [List.mem_cons, not_or]
    exact ⟨hx, hmid⟩
  have hmem : goSlice (p ++ (c.SEP :: x :: mid) ++ (c.SEP :: member))
      (((p ++ (c.SEP :: x :: mid)).length : Nat) + 1)
      ((p ++ (c.SEP :: x :: mid) ++ (c.SEP :: member)).length : Nat) = some member := by
    have := goSlice_middle (p ++ (c.SEP :: x :: mid) ++ [c.SEP]) member []
    simp only [List.append_nil, List.append_assoc, List.singleton_append, List.length_append,
      List.length_cons, List.length_nil, Nat.cast_add, Nat.cast_one] at this ⊢
    rw [← this]
    congr 1
    push_cast
    ring
  have hsc : goSlice (p ++ (c.SEP :: x :: mid) ++ (c.SEP :: member))
      ((p.length : Nat) + 1 + 1) ((p ++ (c.SEP :: x :: mid)).length : Nat) = some mid := by
    have := goSlice_middle (p ++ [c.SEP, x]) mid (c.SEP :: member)
    simp only [List.append_assoc, List.cons_append, List.nil_append, List.length_append,
      List.length_cons, List.length_nil, Nat.cast_add, Nat.cast_one] at this ⊢
    rw [← this]
    congr 1
    push_cast
    ring
  unfold splitScoreKey
  simp only [hpos2, hhead, hpos1, hmem, hsc, copyBytes]

theorem splitScoreKey_of_sep_free (c : Consts) (key member sc : Bytes)
    (h0 : c.SEP ≠ 0x30) (h1 : c.SEP ≠ 0x31)
    (hs : c.SEP ∉ sc) (hm : c.SEP ∉ member) :
    splitScoreKey c (scoreKey c key member sc) = some (sc, member) := by
  have e : scoreKey c key member sc =
      joinStringBytes [c.ZSET_PREFIX, c.SEP_LEFT, key, c.SEP_RIGHT, [0x73]] ++
        (c.SEP :: (if BytesToInt64 sc < 0 then 0x30 else 0x31) :: sc) ++ (c.SEP :: member) := by
    simp only [scoreKey, joinStringBytes]
    split_ifs <;> simp
  rw [e]
  apply splitScoreKey_parts c.SEP c rfl _ _ _ _ _ hs hm
  split_ifs <;> assumption

/-- Decoding a score-index key gives back the score and the member when neither holds
the separator byte (and the separator is not a sign byte). -/
theorem splitScoreKey_scoreKey (c : Consts) (key member sc : Bytes)
    (h0 : c.SEP ≠ 0x30) (h1 : c.SEP ≠ 0x31)
    (hs : c.SEP ∉ sc) (hm : c.SEP ∉ member) :
    splitScoreKey c (scoreKey c key member sc) = some (sc, member) :=
  splitScoreKey_of_sep_free c key member sc h0 h1 hs hm

theorem splitScoreKey_scoreKey_witness :
    splitScoreKey stdConsts (scoreKey stdConsts kZ mA (Int64ToBytes (-2)))
      = some (Int64ToBytes (-2), mA) :=
  splitScoreKey_scoreKey stdConsts kZ mA (Int64ToBytes (-2)) (by decide) (by decide)
    (by decide) (by decide)

/-- C2 (failing input): the key of the score 1 and the member `a#b` is decoded as the
empty score and the member `b`, not as the pair it was made from; on the key of the
score 35, whose last byte is the separator byte, with the member `b` the decoder
panics. -/
theorem splitScoreKey_scoreKey_counterexample :
    splitScoreKey stdConsts (scoreKey stdConsts kZ [0x61, 0x23, 0x62] (Int64ToBytes 1))
      = some ([], [0x62]) ∧
    splitScoreKey stdConsts (scoreKey stdConsts kZ [0x61, 0x23, 0x62] (Int64ToBytes 1))
      ≠ some (Int64ToBytes 1, [0x61, 0x23, 0x62]) ∧
    splitScoreKey stdConsts (scoreKey stdConsts kZ mB (Int64ToBytes 35)) = none := by
  decide

/-! ## Add -/

theorem addLoop_flatPairs (c : Consts) (key : Bytes) (s : Store) (ps : List (Bytes × Bytes))
    (batch : List BatchOp) (n : Int) :
    addLoop c key s (flatPairs ps) batch n =
      some (batch ++ (ps.map (addOps c key s)).flatten, n + ps.length) := by
  induction ps generalizing batch n with
  | nil => simp [flatPairs, addLoop]
  | cons p ps ih =>
    obtain ⟨sc, member⟩ := p
    simp only [flatPairs, addLoop, ih, addOps, List.map_cons, List.flatten_cons,
      List.length_cons]
    cases s.get (memberKey c key member) <;> simp <;> omega

theorem Add_flatPairs (c : Consts) (key : Bytes) (s : Store) (ps : List (Bytes × Bytes)) :
    Add c key s (flatPairs ps) =
      some (s.write ((ps.map (addOps c key s)).flatten ++
        [BatchOp.put (zsetKey c key) zsetValue]), (ps.length : Int)) := by
  simp [Add, addLoop_flatPairs]

/-- C3 (as amended): the count `Add` returns is the number of pairs of the call,
whether or not their members had a member-index entry. -/
theorem Add_returns_pair_count (c : Consts) (key : Bytes) (s : Store)
    (ps : List (Bytes × Bytes)) :
    (Add c key s (flatPairs ps)).map Prod.snd = some (ps.length : Int) := by
  simp [Add_flatPairs]

/-- C3 (counterexample): `Add 10 x` then `Add 20 x`; the member index holds `x` before
the second call, and the second call returns 1. -/
theorem Add_returns_pair_count_counterexample :
    (Add stdConsts kZ [] [Int64ToBytes 10, mX]).map
        (fun r => (Score stdConsts kZ r.1 mX, Add stdConsts kZ r.1 [Int64ToBytes 20, mX] |>.map Prod.snd))
      = some (some (Int64ToBytes 10), some 1) := by
  decide

/-! ## Rank -/

/-- C4 (failing input): after `Add 1 b 2 a` the member `a` is present with score 2 and
one entry sorts before it, yet the ascending `Rank` of `a` is -1; the descending one is 0. -/
theorem Rank_present_member_minus_one :
    Add stdConsts kZ [] [Int64ToBytes 1, mB, Int64ToBytes 2, mA] = some (storeBA, 2) ∧
    Score stdConsts kZ storeBA mA = some (Int64ToBytes 2) ∧
    Rank stdConsts kZ storeBA false mA = some (-1) ∧
    Rank stdConsts kZ storeBA true mA = some 0 := by
  decide

/-! ## RangeByScore -/

/-- C5 (failing input): after `Add -2 a 0 b 3 x` the range scan with the encoded bounds
-5 and 5 returns nothing, and so does the scan with both bounds the encoded 0: the
bounds are joined to the key start without the sign byte that `scoreKey` writes. -/
theorem RangeByScore_encoded_bounds_empty :
    (Add stdConsts kZ [] [Int64ToBytes (-2), mA, Int64ToBytes 0, mB, Int64ToBytes 3, mX]).bind
        (fun r => RangeByScore stdConsts kZ r.1 false (Int64ToBytes (-5)) (Int64ToBytes 5) 0 (-1))
      = some [] ∧
    (Add stdConsts kZ [] [Int64ToBytes (-2), mA, Int64ToBytes 0, mB, Int64ToBytes 3, mX]).bind
        (fun r => RangeByScore stdConsts kZ r.1 false (Int64ToBytes 0) (Int64ToBytes 0) 0 (-1))
      = some [] ∧
    (Add stdConsts kZ [] [Int64ToBytes (-2), mA, Int64ToBytes 0, mB, Int64ToBytes 3, mX]).bind
        (fun r => Score stdConsts kZ r.1 mB)
      = some (Int64ToBytes 0) := by
  decide

/-! ## Remove -/

/-- C7 (failing input): after `Add 1 a` and `Remove a` both index entries are gone and
the existence record is still in the store. -/
theorem Remove_last_keeps_existence_record :
    (Add stdConsts kZ [] [Int64ToBytes 1, mA]).map (fun r => Remove stdConsts kZ r.1 [mA])
      = some ([(zsetKey stdConsts kZ, zsetValue)], 1) := by
  decide

/-! ## Index consistency -/

/-- C9 (failing input): `Add 1 x 2 x` on the empty store leaves the score-index entries
of both `(1, x)` and `(2, x)`, while the member index maps `x` to 2. -/
theorem Add_same_member_twice_leaves_stale_entry :
    (Add stdConsts kZ [] [Int64ToBytes 1, mX, Int64ToBytes 2, mX]).map
        (fun r => (Score stdConsts kZ r.1 mX,
          r.1.get (scoreKey stdConsts kZ mX (Int64ToBytes 1)),
          r.1.get (scoreKey stdConsts kZ mX (Int64ToBytes 2))))
      = some (some (Int64ToBytes 2), some [], some []) := by
  decide

/-! ## The store -/

theorem Store.mem_delete {s : Store} {k : Bytes} {e : Bytes × Bytes} :
    e ∈ s.delete k ↔ e ∈ s ∧ e.1 ≠ k := by
  simp [Store.delete]

theorem Store.mem_keys {s : Store} {k : Bytes} : k ∈ s.keys ↔ ∃ v, (k, v) ∈ s := by
  simp [Store.keys]

theorem Store.get_eq_none {s : Store} {k : Bytes} (h : k ∉ s.keys) : s.get k = none := by
  induction s with
  | nil => rfl
  | cons e s ih =>
    obtain ⟨k1, v1⟩ := e
    simp only [Store.keys, List.map_cons, List.mem_cons, not_or] at h
    simp only [Store.get]
    rw [if_neg (fun e => h.1 e.symm)]
    exact ih h.2

theorem Store.mem_write_deletes {s : Store} {ks : List Bytes} {e : Bytes × Bytes} :
    e ∈ s.write (ks.map BatchOp.delete) ↔ e ∈ s ∧ e.1 ∉ ks := by
  induction ks generalizing s with
  | nil => simp [Store.write]
  | cons k ks ih =>
    simp only [Store.write, List.map_cons, List.foldl_cons, Store.apply] at ih ⊢
    rw [ih, Store.mem_delete]
    simp only [List.mem_cons, not_or]
    tauto

theorem Store.write_append (s : Store) (b1 b2 : List BatchOp) :
    s.write (b1 ++ b2) = (s.write b1).write b2 := by
  simp [Store.write]

/-! ## Prefixes -/

theorem hasPrefix_append_self (p x : Bytes) : hasPrefix (p ++ x) p = true := by
  induction p with
  | nil => cases x <;> rfl
  | cons a p ih => simp [hasPrefix, ih]

theorem hasPrefix_of_append {k p q : Bytes} (h : hasPrefix k (p ++ q) = true) :
    hasPrefix k p = true := by
  induction p generalizing k with
  | nil => cases k <;> rfl
  | cons a p ih =>
    cases k with
    | nil => simp [hasPrefix] at h
    | cons x k =>
      simp only [List.cons_append, hasPrefix, Bool.and_eq_true] at h ⊢
      exact ⟨h.1, ih h.2⟩

theorem memberKey_eq (c : Consts) (key member : Bytes) :
    memberKey c key member = dropPrefix c key ++ (0x6d :: c.SEP :: member) := by
  simp [memberKey, dropPrefix, joinStringBytes]

theorem scoreKeyPrefix_eq (c : Consts) (key : Bytes) :
    scoreKeyPrefix c key = dropPrefix c key ++ [0x73, c.SEP] := by
  simp [scoreKeyPrefix, dropPrefix, joinStringBytes]

/-! ## Drop -/

theorem visitAll_dropVisit (l : Store) (i : Int) (batch : List BatchOp) :
    visitAll dropVisit l i batch = batch ++ (l.map Prod.fst).map BatchOp.delete := by
  induction l generalizing i batch with
  | nil => simp [visitAll]
  | cons e l ih =>
    obtain ⟨k, v⟩ := e
    simp [visitAll, dropVisit, ih]

theorem Drop_store_mem {c : Consts} {key : Bytes} {s : Store} {e : Bytes × Bytes}
    (h : e ∈ (Drop c key s).1) :
    e ∈ s ∧ e.1 ≠ zsetKey c key ∧ hasPrefix e.1 (dropPrefix c key) = false := by
  simp only [Drop, PrefixEnumerate, inDirection, visitAll_dropVisit, List.nil_append,
    Store.write_append] at h
  simp only [Store.write, List.foldl_cons, List.foldl_nil, Store.apply] at h
  rw [Store.mem_delete] at h
  have h1 := Store.mem_write_deletes.1 h.1
  refine ⟨h1.1, h.2, ?_⟩
  by_contra hp
  simp only [Bool.not_eq_false] at hp
  apply h1.2
  simp only [List.mem_map, List.mem_filter]
  exact ⟨e, ⟨h1.1, hp⟩, rfl⟩

theorem Drop_no_scoreKeys (c : Consts) (key : Bytes) (s : Store) :
    (Drop c key s).1.filter (fun e => hasPrefix e.1 (scoreKeyPrefix c key)) = [] := by
  rw [List.filter_eq_nil_iff]
  intro e he hp
  have h := (Drop_store_mem he).2.2
  rw [scoreKeyPrefix_eq] at hp
  rw [hasPrefix_of_append hp] at h
  exact Bool.noConfusion h

/-- C8: after `Drop` the store holds no key that starts with `ZSET_PREFIX SEP_LEFT key
SEP_RIGHT` and no existence record of the key; `Score` is absent for every member, the
full ascending `RangeByIndex` is empty and `Len` is 0. -/
theorem Drop_clears (c : Consts) (key : Bytes) (s : Store) :
    (∀ k ∈ (Drop c key s).1.keys, hasPrefix k (dropPrefix c key) = false) ∧
    zsetKey c key ∉ (Drop c key s).1.keys ∧
    (Drop c key s).1.get (zsetKey c key) = none ∧
    (∀ member, Score c key (Drop c key s).1 member = none) ∧
    RangeByIndex c key (Drop c key s).1 false 0 (-1) = some [] ∧
    Len c key (Drop c key s).1 = 0 := by
  have hkeys : ∀ k ∈ (Drop c key s).1.keys, hasPrefix k (dropPrefix c key) = false := by
    intro k hk
    obtain ⟨v, hv⟩ := Store.mem_keys.1 hk
    exact (Drop_store_mem hv).2.2
  have hz : zsetKey c key ∉ (Drop c key s).1.keys := by
    intro hk
    obtain ⟨v, hv⟩ := Store.mem_keys.1 hk
    exact (Drop_store_mem hv).2.1 rfl
  refine ⟨hkeys, hz, Store.get_eq_none hz, ?_, ?_, ?_⟩
  · intro member
    apply Store.get_eq_none
    intro hk
    have h := hkeys _ hk
    rw [memberKey_eq, hasPrefix_append_self] at h
    exact Bool.noConfusion h
  · simp [RangeByIndex, PrefixEnumerate, Drop_no_scoreKeys, directionOf, inDirection, visitAll]
  · simp [Len, len, PrefixEnumerate, Drop_no_scoreKeys, inDirection, visitAll]

/-! ## Reads after a write -/

theorem Store.get_put (s : Store) (k v k1 : Bytes) :
    (s.put k v).get k1 = if k = k1 then some v else s.get k1 := by
  induction s with
  | nil => simp [Store.put, Store.get]
  | cons e s ih =>
    obtain ⟨k0, v0⟩ := e
    simp only [Store.put]
    by_cases h1 : bytesCompare k k0 = -1
    · rw [if_pos h1]
      simp [Store.get]
    · rw [if_neg h1]
      by_cases h2 : k = k0
      · rw [if_pos h2]
        subst h2
        simp only [Store.get]
        split_ifs <;> rfl
      · rw [if_neg h2]
        simp only [Store.get, ih]
        by_cases h3 : k = k1
        · subst h3
          have : k0 ≠ k := fun e => h2 e.symm
          simp [this]
        · simp [h3]

theorem Store.get_delete (s : Store) (k k1 : Bytes) :
    (s.delete k).get k1 = if k = k1 then none else s.get k1 := by
  induction s with
  | nil => simp [Store.delete, Store.get]
  | cons e s ih =>
    obtain ⟨k0, v0⟩ := e
    simp only [Store.delete, List.filter_cons] at ih ⊢
    by_cases h0 : k0 = k
    · subst h0
      simp only [decide_True, Bool.not_true, Bool.false_eq_true, if_false, ih, Store.get]
      split_ifs <;> rfl
    · simp only [h0, decide_False, Bool.not_false, if_true, Store.get, ih]
      split_ifs with h1 h2 h2
      · exact absurd (h1.trans h2.symm) h0
      · rfl
      · rfl
      · rfl

theorem Store.mem_keys_put (s : Store) (k v k1 : Bytes) :
    k1 ∈ (s.put k v).keys ↔ k1 = k ∨ k1 ∈ s.keys := by
  induction s with
  | nil => simp [Store.put, Store.keys]
  | cons e s ih =>
    obtain ⟨k0, v0⟩ := e
    simp only [Store.put]
    split_ifs with h1 h2
    · simp [Store.keys]
    · subst h2
      simp [Store.keys]
    · simp only [Store.keys, List.map_cons, List.mem_cons] at ih ⊢
      rw [ih]
      tauto

theorem Store.mem_keys_delete (s : Store) (k k1 : Bytes) :
    k1 ∈ (s.delete k).keys ↔ k1 ≠ k ∧ k1 ∈ s.keys := by
  simp only [Store.keys, Store.delete, List.mem_map, List.mem_filter, Prod.exists]
  constructor
  · rintro ⟨a, b, ⟨h1, h2⟩, rfl⟩
    exact ⟨by simpa using h2, a, b, h1, rfl⟩
  · rintro ⟨h1, a, b, h2, rfl⟩
    exact ⟨a, b, ⟨h2, by simpa using h1⟩, rfl⟩

/-! ## Distinct keys -/

theorem scoreKey_eq_drop (c : Consts) (key member sc : Bytes) :
    scoreKey c key member sc = dropPrefix c key ++
      (0x73 :: c.SEP :: (if BytesToInt64 sc < 0 then 0x30 else 0x31) :: (sc ++ c.SEP :: member)) := by
  simp only [scoreKey, dropPrefix, joinStringBytes]
  split_ifs <;> simp

theorem zsetKey_eq (c : Consts) (key : Bytes) :
    zsetKey c key = c.KEY_PREFIX ++ (c.SEP_LEFT ++ (key ++ (c.SEP_RIGHT ++ c.ZSET_SUFFIX))) := by
  simp [zsetKey, joinStringBytes]

theorem dropPrefix_eq (c : Consts) (key : Bytes) :
    dropPrefix c key = c.ZSET_PREFIX ++ (c.SEP_LEFT ++ (key ++ c.SEP_RIGHT)) := by
  simp [dropPrefix, joinStringBytes]

theorem memberKey_inj {c : Consts} {key m1 m2 : Bytes}
    (h : memberKey c key m1 = memberKey c key m2) : m1 = m2 := by
  rw [memberKey_eq, memberKey_eq] at h
  simpa using h

theorem memberKey_ne_scoreKey (c : Consts) (key m1 m2 sc : Bytes) :
    memberKey c key m1 ≠ scoreKey c key m2 sc := by
  rw [memberKey_eq, scoreKey_eq_drop]
  simp

theorem zsetKey_ne_memberKey {c : Consts} (hc : c.Separated) (key m1 : Bytes) :
    zsetKey c key ≠ memberKey c key m1 := by
  rw [memberKey_eq, zsetKey_eq, dropPrefix_eq, List.append_assoc]
  exact hc _ _

theorem zsetKey_ne_scoreKey {c : Consts} (hc : c.Separated) (key m1 sc : Bytes) :
    zsetKey c key ≠ scoreKey c key m1 sc := by
  rw [scoreKey_eq_drop, zsetKey_eq, dropPrefix_eq, List.append_assoc]
  exact hc _ _

theorem scoreKey_inj_score {c : Consts} {key member s1 s2 : Bytes}
    (h : scoreKey c key member s1 = scoreKey c key member s2) : s1 = s2 := by
  rw [scoreKey_eq_drop, scoreKey_eq_drop] at h
  have h1 := List.append_cancel_left h
  simp only [List.cons.injEq, true_and] at h1
  exact List.append_cancel_right h1.2

/-! ## The effect of one pair of `Add` -/

theorem addOne_get_member (c : Consts) (key : Bytes) (t : Store) (sc member m1 : Bytes) :
    (addOne c key t (sc, member)).get (memberKey c key m1) =
      if member = m1 then some sc else t.get (memberKey c key m1) := by
  have hne : ∀ x y : Bytes, scoreKey c key x y ≠ memberKey c key m1 :=
    fun x y e => memberKey_ne_scoreKey c key m1 x y e.symm
  have hm : (memberKey c key member = memberKey c key m1) ↔ member = m1 :=
    ⟨memberKey_inj, fun e => by rw [e]⟩
  unfold addOne addOps
  cases t.get (memberKey c key member) <;>
    simp [Store.write, Store.apply, Store.get_put, Store.get_delete, hne, hm]

theorem addOne_mem_keys (c : Consts) (key : Bytes) (t : Store) (sc member k : Bytes) :
    k ∈ (addOne c key t (sc, member)).keys ↔
      k = scoreKey c key member sc ∨ k = memberKey c key member ∨
        (k ∈ t.keys ∧ ∀ old, t.get (memberKey c key member) = some old →
          k ≠ scoreKey c key member old) := by
  unfold addOne addOps
  cases h : t.get (memberKey c key member) <;>
    simp [Store.write, Store.apply, Store.mem_keys_put, Store.mem_keys_delete, h]
  tauto

theorem Add_single (c : Consts) (key : Bytes) (s : Store) (sc member : Bytes) :
    Add c key s [sc, member] =
      some ((addOne c key s (sc, member)).put (zsetKey c key) zsetValue, 1) := by
  have h := Add_flatPairs c key s [(sc, member)]
  simpa [flatPairs, addOne, Store.write_append, Store.write, Store.apply] using h

theorem Add_single_get_member {c : Consts} (hc : c.Separated) (key : Bytes) (s : Store)
    (sc member : Bytes) :
    ((addOne c key s (sc, member)).put (zsetKey c key) zsetValue).get (memberKey c key member)
      = some sc := by
  rw [Store.get_put, if_neg (zsetKey_ne_memberKey hc key member), addOne_get_member, if_pos rfl]

theorem Add_single_mem_scoreKey {c : Consts} (hc : c.Separated) (key : Bytes) (s : Store)
    (sc member x : Bytes) :
    scoreKey c key member x ∈ ((addOne c key s (sc, member)).put (zsetKey c key) zsetValue).keys
      ↔ x = sc ∨ (scoreKey c key member x ∈ s.keys ∧ s.get (memberKey c key member) ≠ some x) := by
  rw [Store.mem_keys_put, addOne_mem_keys]
  have h1 : scoreKey c key member x ≠ zsetKey c key :=
    fun e => zsetKey_ne_scoreKey hc key member x e.symm
  have h2 : scoreKey c key member x ≠ memberKey c key member :=
    fun e => memberKey_ne_scoreKey c key member member x e.symm
  have h3 : scoreKey c key member x = scoreKey c key member sc ↔ x = sc :=
    ⟨scoreKey_inj_score, fun e => by rw [e]⟩
  simp only [h1, h2, h3, false_or]
  constructor
  · rintro (h | ⟨h4, h5⟩)
    · exact Or.inl h
    · exact Or.inr ⟨h4, fun e => h5 x e rfl⟩
  · rintro (h | ⟨h4, h5⟩)
    · exact Or.inl h
    · refine Or.inr ⟨h4, fun old e e2 => h5 ?_⟩
      rw [e, scoreKey_inj_score e2]

/-- C10 (as amended): from a store whose score-index entries of the member agree with
the member index, `Add s1 m` followed by `Add s2 m` leaves `Score m = s2` and the entry
of `s2` as the only score-index entry of the member. -/
theorem Add_twice_replaces_score (c : Consts) (key : Bytes) (s : Store)
    (member s1 s2 : Bytes) (hc : c.Separated)
    (hcons : ∀ sc, scoreKey c key member sc ∈ s.keys →
      s.get (memberKey c key member) = some sc) :
    ∃ t u, Add c key s [s1, member] = some (t, 1) ∧
      Add c key t [s2, member] = some (u, 1) ∧
      Score c key u member = some s2 ∧
      ∀ sc, scoreKey c key member sc ∈ u.keys ↔ sc = s2 := by
  refine ⟨_, _, Add_single c key s s1 member, Add_single c key _ s2 member, ?_, ?_⟩
  · exact Add_single_get_member hc key _ s2 member
  · intro sc
    rw [Add_single_mem_scoreKey hc, Add_single_mem_scoreKey hc, Add_single_get_member hc]
    constructor
    · rintro (h | ⟨h1 | ⟨h1, h2⟩, h3⟩)
      · exact h
      · exact absurd (by rw [h1]) h3
      · exact absurd (hcons sc h1) h2
    · intro h
      exact Or.inl h

theorem stdConsts_separated : stdConsts.Separated := by
  intro x y
  simp [stdConsts]

theorem Add_twice_replaces_score_witness :
    ∃ t u, Add stdConsts kZ [] [Int64ToBytes 10, mX] = some (t, 1) ∧
      Add stdConsts kZ t [Int64ToBytes 20, mX] = some (u, 1) ∧
      Score stdConsts kZ u mX = some (Int64ToBytes 20) ∧
      ∀ sc, scoreKey stdConsts kZ mX sc ∈ u.keys ↔ sc = Int64ToBytes 20 :=
  Add_twice_replaces_score stdConsts kZ [] mX (Int64ToBytes 10) (Int64ToBytes 20)
    stdConsts_separated (fun _ h => absurd h (List.not_mem_nil _))

/-- C10 (counterexample): the store after `Add 1 x 2 x` holds a score-index entry of
`(1, x)`; after `Add 3 x` and `Add 4 x` the member index maps `x` to 4 and the score
index holds the entries of both `(1, x)` and `(4, x)`. -/
theorem Add_twice_replaces_score_counterexample :
    (Add stdConsts kZ [] [Int64ToBytes 1, mX, Int64ToBytes 2, mX]).bind (fun r0 =>
      (Add stdConsts kZ r0.1 [Int64ToBytes 3, mX]).bind (fun r1 =>
        (Add stdConsts kZ r1.1 [Int64ToBytes 4, mX]).map (fun r2 =>
          (Score stdConsts kZ r2.1 mX,
            decide (scoreKey stdConsts kZ mX (Int64ToBytes 1) ∈ r2.1.keys),
            decide (scoreKey stdConsts kZ mX (Int64ToBytes 4) ∈ r2.1.keys)))))
      = some (some (Int64ToBytes 4), true, true) := by
  decide

/-! ## Key order is kept by writes -/

theorem bytesCompare_gt_of_not_lt {a b : Bytes} (h1 : bytesCompare a b ≠ -1) (h2 : a ≠ b) :
    bytesCompare b a = -1 := by
  rcases bytesCompare_range a b with h | h | h
  · exact absurd h h1
  · exact absurd (bytesCompare_eq_zero h) h2
  · rw [bytesCompare_swap, h]

theorem Store.mem_put {s : Store} {k v : Bytes} {e : Bytes × Bytes} (h : e ∈ s.put k v) :
    e = (k, v) ∨ e ∈ s := by
  induction s with
  | nil => simpa [Store.put] using h
  | cons e0 s ih =>
    obtain ⟨k0, v0⟩ := e0
    simp only [Store.put] at h
    split_ifs at h with h1 h2
    · simpa using h
    · rcases List.mem_cons.1 h with h3 | h3
      · exact Or.inl h3
      · exact Or.inr (List.mem_cons_of_mem _ h3)
    · rcases List.mem_cons.1 h with h3 | h3
      · exact Or.inr (by rw [h3]; exact List.mem_cons_self _ _)
      · rcases ih h3 with h4 | h4
        · exact Or.inl h4
        · exact Or.inr (List.mem_cons_of_mem _ h4)

theorem Store.Sorted.put {s : Store} (h : s.Sorted) (k v : Bytes) : (s.put k v).Sorted := by
  induction s with
  | nil => simp [Store.put, Store.Sorted]
  | cons e0 s ih =>
    obtain ⟨k0, v0⟩ := e0
    obtain ⟨h1, h2⟩ := List.pairwise_cons.1 h
    simp only [Store.put]
    split_ifs with h3 h4
    · refine List.pairwise_cons.2 ⟨fun e he => ?_, h⟩
      rcases List.mem_cons.1 he with h5 | h5
      · rw [h5]; exact h3
      · exact bytesCompare_trans h3 (h1 e h5)
    · subst h4
      exact List.pairwise_cons.2 ⟨h1, h2⟩
    · refine List.pairwise_cons.2 ⟨fun e he => ?_, ih h2⟩
      rcases Store.mem_put he with h5 | h5
      · rw [h5]; exact bytesCompare_gt_of_not_lt h3 h4
      · exact h1 e h5

theorem Store.Sorted.delete {s : Store} (h : s.Sorted) (k : Bytes) : (s.delete k).Sorted :=
  List.Pairwise.filter _ h

theorem Store.Sorted.write {s : Store} (h : s.Sorted) (batch : List BatchOp) :
    (s.write batch).Sorted := by
  induction batch generalizing s with
  | nil => exact h
  | cons op batch ih =>
    cases op with
    | put k v => exact ih (h.put k v)
    | delete k => exact ih (h.delete k)

/-! ## A call of `Add` without a repeated member -/

theorem addOps_congr (c : Consts) (key : Bytes) (s t : Store) (p : Bytes × Bytes)
    (h : t.get (memberKey c key p.2) = s.get (memberKey c key p.2)) :
    addOps c key s p = addOps c key t p := by
  simp only [addOps, h]

theorem write_addOps_eq_foldl (c : Consts) (key : Bytes) (s : Store)
    (call : List (Bytes × Bytes)) (hn : (call.map Prod.snd).Nodup) (t : Store)
    (ht : ∀ p ∈ call, t.get (memberKey c key p.2) = s.get (memberKey c key p.2)) :
    t.write (call.map (addOps c key s)).flatten = call.foldl (addOne c key) t := by
  induction call generalizing t with
  | nil => rfl
  | cons p call ih =>
    obtain ⟨hp, hn1⟩ := List.nodup_cons.1 hn
    rw [List.map_cons, List.flatten_cons, Store.write_append, List.foldl_cons,
      addOps_congr c key s t p (ht p (List.mem_cons_self _ _))]
    apply ih hn1
    intro q hq
    obtain ⟨sc, member⟩ := p
    show (addOne c key t (sc, member)).get (memberKey c key q.2) = _
    rw [addOne_get_member, if_neg, ht q (List.mem_cons_of_mem _ hq)]
    intro e
    apply hp
    show member ∈ List.map Prod.snd call
    rw [e]
    exact List.mem_map_of_mem _ hq

theorem Add_nodup (c : Consts) (key : Bytes) (s : Store) (call : List (Bytes × Bytes))
    (hn : (call.map Prod.snd).Nodup) :
    Add c key s (flatPairs call) =
      some ((call.foldl (addOne c key) s).put (zsetKey c key) zsetValue, (call.length : Int)) := by
  rw [Add_flatPairs, Store.write_append, write_addOps_eq_foldl c key s call hn s (fun _ _ => rfl)]
  rfl

/-! ## The two indexes agree after `Add` -/

theorem hasPrefix_append_left (p x y : Bytes) : hasPrefix (p ++ x) (p ++ y) = hasPrefix x y := by
  induction p with
  | nil => rfl
  | cons a p ih => simp [hasPrefix, ih]

theorem hasPrefix_eq_append {k p : Bytes} (h : hasPrefix k p = true) : ∃ r, k = p ++ r := by
  induction p generalizing k with
  | nil => exact ⟨k, rfl⟩
  | cons a p ih =>
    cases k with
    | nil => simp [hasPrefix] at h
    | cons x k =>
      simp only [hasPrefix, Bool.and_eq_true, beq_iff_eq] at h
      obtain ⟨r, hr⟩ := ih h.2
      exact ⟨r, by rw [h.1, hr]; rfl⟩

theorem memberKey_not_scorePrefix (c : Consts) (key member : Bytes) :
    hasPrefix (memberKey c key member) (scoreKeyPrefix c key) = false := by
  rw [memberKey_eq, scoreKeyPrefix_eq, hasPrefix_append_left]
  simp [hasPrefix]

theorem scoreKey_hasPrefix (c : Consts) (key member sc : Bytes) :
    hasPrefix (scoreKey c key member sc) (scoreKeyPrefix c key) = true := by
  rw [scoreKey_eq, hasPrefix_append_self]

theorem zsetKey_not_scorePrefix {c : Consts} (hc : c.Separated) (key : Bytes) :
    hasPrefix (zsetKey c key) (scoreKeyPrefix c key) = false := by
  by_contra h
  simp only [Bool.not_eq_false] at h
  obtain ⟨r, hr⟩ := hasPrefix_eq_append h
  rw [zsetKey_eq, scoreKeyPrefix_eq, dropPrefix_eq] at hr
  simp only [List.append_assoc] at hr
  exact hc _ _ hr

theorem scoreKey_inj_good {c : Consts} (h0 : c.SEP ≠ 0x30) (h1 : c.SEP ≠ 0x31)
    {key m1 m2 s1 s2 : Bytes} (hs1 : c.SEP ∉ s1) (hm1 : c.SEP ∉ m1) (hs2 : c.SEP ∉ s2)
    (hm2 : c.SEP ∉ m2) (h : scoreKey c key m1 s1 = scoreKey c key m2 s2) :
    s1 = s2 ∧ m1 = m2 := by
  have e1 := splitScoreKey_of_sep_free c key m1 s1 h0 h1 hs1 hm1
  have e2 := splitScoreKey_of_sep_free c key m2 s2 h0 h1 hs2 hm2
  rw [h, e2] at e1
  simpa [eq_comm] using e1

theorem ZInv.nil (c : Consts) (key : Bytes) : ZInv c key [] where
  sorted := List.Pairwise.nil
  scoreIndex := fun _ hk => absurd hk (List.not_mem_nil _)
  memberIndex := fun _ _ h => by simp [Store.get] at h

theorem ZInv.step {c : Consts} (h0 : c.SEP ≠ 0x30) (h1 : c.SEP ≠ 0x31) {key : Bytes}
    {t : Store} (hinv : ZInv c key t) {p : Bytes × Bytes} (hp : GoodPair c p) :
    ZInv c key (addOne c key t p) := by
  obtain ⟨sc, member⟩ := p
  refine ⟨hinv.sorted.write _, ?_, ?_⟩
  · intro k hk hpre
    rcases (addOne_mem_keys c key t sc member k).1 hk with h | h | ⟨h2, h3⟩
    · exact ⟨sc, member, h, by rw [addOne_get_member, if_pos rfl]⟩
    · rw [h, memberKey_not_scorePrefix] at hpre
      exact Bool.noConfusion hpre
    · obtain ⟨sc1, m1, hk1, hg1⟩ := hinv.scoreIndex k h2 hpre
      refine ⟨sc1, m1, hk1, ?_⟩
      rw [addOne_get_member, if_neg, hg1]
      intro e
      subst e
      exact h3 sc1 hg1 hk1
  · intro m1 sc1 hg
    rw [addOne_get_member] at hg
    split_ifs at hg with e
    · subst e
      have e2 : sc = sc1 := by simpa using hg
      subst e2
      exact ⟨hp, (addOne_mem_keys c key t sc member _).2 (Or.inl rfl)⟩
    · obtain ⟨hg1, hk1⟩ := hinv.memberIndex m1 sc1 hg
      refine ⟨hg1, (addOne_mem_keys c key t sc member _).2 (Or.inr (Or.inr ⟨hk1, ?_⟩))⟩
      intro old hold heq
      obtain ⟨hg2, _⟩ := hinv.memberIndex member old hold
      exact e (scoreKey_inj_good h0 h1 hg1.1.1 hg1.2 hg2.1.1 hg2.2 heq).2.symm

theorem ZInv.steps {c : Consts} (h0 : c.SEP ≠ 0x30) (h1 : c.SEP ≠ 0x31) {key : Bytes}
    (call : List (Bytes × Bytes)) (hg : ∀ p ∈ call, GoodPair c p) {t : Store}
    (hinv : ZInv c key t) : ZInv c key (call.foldl (addOne c key) t) := by
  induction call generalizing t with
  | nil => exact hinv
  | cons p call ih =>
    exact ih (fun q hq => hg q (List.mem_cons_of_mem _ hq))
      (hinv.step h0 h1 (hg p (List.mem_cons_self _ _)))

theorem ZInv.put_zsetKey {c : Consts} (hc : c.Separated) {key : Bytes} {t : Store}
    (hinv : ZInv c key t) : ZInv c key (t.put (zsetKey c key) zsetValue) := by
  have hget : ∀ m1, (t.put (zsetKey c key) zsetValue).get (memberKey c key m1)
      = t.get (memberKey c key m1) := by
    intro m1
    rw [Store.get_put, if_neg (zsetKey_ne_memberKey hc key m1)]
  refine ⟨hinv.sorted.put _ _, ?_, ?_⟩
  · intro k hk hpre
    rcases (Store.mem_keys_put t _ _ k).1 hk with h | h
    · rw [h, zsetKey_not_scorePrefix hc] at hpre
      exact Bool.noConfusion hpre
    · obtain ⟨sc1, m1, hk1, hg1⟩ := hinv.scoreIndex k h hpre
      exact ⟨sc1, m1, hk1, by rw [hget, hg1]⟩
  · intro m1 sc1 hg
    rw [hget] at hg
    obtain ⟨hg1, hk1⟩ := hinv.memberIndex m1 sc1 hg
    exact ⟨hg1, (Store.mem_keys_put t _ _ _).2 (Or.inr hk1)⟩

theorem addAll_inv {c : Consts} (hc : c.Separated) (h0 : c.SEP ≠ 0x30) (h1 : c.SEP ≠ 0x31)
    (key : Bytes) (calls : List (List (Bytes × Bytes)))
    (hn : ∀ call ∈ calls, (call.map Prod.snd).Nodup)
    (hg : ∀ call ∈ calls, ∀ p ∈ call, GoodPair c p) (s : Store) (hinv : ZInv c key s) :
    ∃ s1, addAll c key s calls = some s1 ∧ ZInv c key s1 := by
  induction calls generalizing s with
  | nil => exact ⟨s, rfl, hinv⟩
  | cons call calls ih =>
    simp only [addAll, Add_nodup c key s call (hn call (List.mem_cons_self _ _))]
    exact ih (fun x hx => hn x (List.mem_cons_of_mem _ hx))
      (fun x hx => hg x (List.mem_cons_of_mem _ hx)) _
      ((ZInv.steps h0 h1 call (hg call (List.mem_cons_self _ _)) hinv).put_zsetKey hc)

/-! ## RangeByIndex over the whole set -/

theorem visitAll_rangeAll (c : Consts) (l : Store) (acc : List Bytes) (i : Int) (hi : 0 ≤ i)
    (hd : ∀ e ∈ l, ∃ p, splitScoreKey c e.1 = some p) :
    visitAll (rangeByIndexVisit c 0 (-1)) l i (some acc) =
      some (acc ++ flatPairs (decodedPairs c l)) := by
  induction l generalizing acc i with
  | nil => simp [visitAll, decodedPairs, flatPairs]
  | cons e l ih =>
    obtain ⟨k, v⟩ := e
    obtain ⟨⟨sc, member⟩, hp⟩ := hd (k, v) (List.mem_cons_self _ _)
    have hp1 : splitScoreKey c k = some (sc, member) := hp
    have hstep : rangeByIndexVisit c 0 (-1) i k v (some acc)
        = (some ((acc ++ [sc]) ++ [member]), false) := by
      simp only [rangeByIndexVisit, hp1]
      rw [if_neg (by omega), if_pos ⟨by omega, Or.inl trivial⟩]
    simp only [visitAll, hstep]
    rw [ih _ _ (by omega) (fun e he => hd e (List.mem_cons_of_mem _ he))]
    simp [decodedPairs, flatPairs, hp1]

theorem ZInv.decode {c : Consts} (h0 : c.SEP ≠ 0x30) (h1 : c.SEP ≠ 0x31) {key : Bytes}
    {s : Store} (hinv : ZInv c key s) {e : Bytes × Bytes} (he : e ∈ s)
    (hpre : hasPrefix e.1 (scoreKeyPrefix c key) = true) :
    ∃ sc member, e.1 = scoreKey c key member sc ∧
      s.get (memberKey c key member) = some sc ∧ GoodPair c (sc, member) ∧
      splitScoreKey c e.1 = some (sc, member) := by
  have hk : e.1 ∈ s.keys := List.mem_map_of_mem Prod.fst he
  obtain ⟨sc, member, hk1, hg1⟩ := hinv.scoreIndex e.1 hk hpre
  obtain ⟨hg2, _⟩ := hinv.memberIndex member sc hg1
  refine ⟨sc, member, hk1, hg1, hg2, ?_⟩
  rw [hk1]
  exact splitScoreKey_of_sep_free c key member sc h0 h1 hg2.1.1 hg2.2

theorem pairLt_ne {p q : Bytes × Bytes} (h : pairLt p q) : p ≠ q := by
  intro e
  subst e
  rcases h with h | ⟨_, h⟩
  · exact lt_irrefl _ h
  · rw [bytesCompare_self] at h
    exact absurd h (by decide)

theorem pairLt_of_scoreKey_lt {c : Consts} {key m1 m2 s1 s2 : Bytes}
    (hg1 : GoodScore c s1) (hg2 : GoodScore c s2)
    (h : bytesCompare (scoreKey c key m1 s1) (scoreKey c key m2 s2) = -1) :
    pairLt (s1, m1) (s2, m2) := by
  obtain ⟨_, v1, hlo1, hhi1, e1⟩ := hg1
  obtain ⟨_, v2, hlo2, hhi2, e2⟩ := hg2
  subst e1
  subst e2
  unfold pairLt
  simp only [BytesToInt64_Int64ToBytes v1 hlo1 hhi1, BytesToInt64_Int64ToBytes v2 hlo2 hhi2]
  rcases lt_trichotomy v1 v2 with hlt | heq | hgt
  · exact Or.inl hlt
  · subst heq
    rw [scoreKey_compare_same_score] at h
    exact Or.inr ⟨rfl, h⟩
  · have h2 := scoreKey_lt_of_score_lt c key m2 m1 v2 v1 hlo2 hhi1 hgt
    rw [bytesCompare_swap, h] at h2
    exact absurd h2 (by decide)

theorem RangeByIndex_all_of_inv {c : Consts} (h0 : c.SEP ≠ 0x30) (h1 : c.SEP ≠ 0x31)
    {key : Bytes} {s : Store} (hinv : ZInv c key s) :
    ∃ L, RangeByIndex c key s false 0 (-1) = some (flatPairs L) ∧ L.Pairwise pairLt ∧
      ∀ sc member, (sc, member) ∈ L ↔ Score c key s member = some sc := by
  have hE : ∀ e ∈ s.filter (fun e => hasPrefix e.1 (scoreKeyPrefix c key)),
      e ∈ s ∧ hasPrefix e.1 (scoreKeyPrefix c key) = true := by
    intro e he
    simpa using List.mem_filter.1 he
  refine ⟨decodedPairs c (s.filter (fun e => hasPrefix e.1 (scoreKeyPrefix c key))), ?_, ?_, ?_⟩
  · simp only [RangeByIndex, PrefixEnumerate, directionOf, inDirection]
    have := visitAll_rangeAll c (s.filter (fun e => hasPrefix e.1 (scoreKeyPrefix c key))) []
      0 (le_refl 0) (fun e he => by
        obtain ⟨sc, member, _, _, _, hd⟩ := hinv.decode h0 h1 (hE e he).1 (hE e he).2
        exact ⟨_, hd⟩)
    simpa using this
  · unfold decodedPairs
    rw [List.pairwise_map]
    refine List.Pairwise.imp_of_mem ?_ (List.Pairwise.filter _ hinv.sorted)
    intro a b ha hb hab
    obtain ⟨sa, ma, hka, _, hga, hda⟩ := hinv.decode h0 h1 (hE a ha).1 (hE a ha).2
    obtain ⟨sb, mb, hkb, _, hgb, hdb⟩ := hinv.decode h0 h1 (hE b hb).1 (hE b hb).2
    rw [hda, hdb]
    rw [hka, hkb] at hab
    exact pairLt_of_scoreKey_lt hga.1 hgb.1 hab
  · intro sc member
    unfold decodedPairs Score score
    rw [List.mem_map]
    constructor
    · rintro ⟨e, he, hd⟩
      obtain ⟨s1, m1, _, hg1, _, hd1⟩ := hinv.decode h0 h1 (hE e he).1 (hE e he).2
      rw [hd1] at hd
      simp only [Option.getD_some, Prod.mk.injEq] at hd
      rw [← hd.1, ← hd.2]
      exact hg1
    · intro hg
      obtain ⟨hg1, hk1⟩ := hinv.memberIndex member sc hg
      obtain ⟨v, hv⟩ := Store.mem_keys.1 hk1
      refine ⟨(scoreKey c key member sc, v), ?_, ?_⟩
      · rw [List.mem_filter]
        exact ⟨hv, scoreKey_hasPrefix c key member sc⟩
      · rw [splitScoreKey_of_sep_free c key member sc h0 h1 hg1.1.1 hg1.2]
        rfl

/-- The full ascending scan on well-formed sets: for a sorted set built from the empty
store by `Add` calls that list no member twice within a call, with scores that are 8-byte
encodings and with scores and members free of the separator byte,
`RangeByIndex(false, 0, -1)` returns the pairs of the member index, each once, in
ascending order of signed score, then member. -/
theorem RangeByIndex_all_sorted (c : Consts) (key : Bytes)
    (calls : List (List (Bytes × Bytes)))
    (hc : c.Separated) (h0 : c.SEP ≠ 0x30) (h1 : c.SEP ≠ 0x31)
    (hn : ∀ call ∈ calls, (call.map Prod.snd).Nodup)
    (hg : ∀ call ∈ calls, ∀ p ∈ call, GoodPair c p) :
    ∃ s L, addAll c key [] calls = some s ∧
      RangeByIndex c key s false 0 (-1) = some (flatPairs L) ∧
      L.Pairwise pairLt ∧ L.Nodup ∧
      ∀ sc member, (sc, member) ∈ L ↔ Score c key s member = some sc := by
  obtain ⟨s, hs, hinv⟩ := addAll_inv hc h0 h1 key calls hn hg [] (ZInv.nil c key)
  obtain ⟨L, hL1, hL2, hL3⟩ := RangeByIndex_all_of_inv h0 h1 hinv
  exact ⟨s, L, hs, hL1, hL2, hL2.imp pairLt_ne, hL3⟩

theorem goodPair_of_encoding (c : Consts) (v : Int) (member : Bytes)
    (hlo : -9223372036854775808 ≤ v) (hhi : v < 9223372036854775808)
    (hs : c.SEP ∉ Int64ToBytes v) (hm : c.SEP ∉ member) :
    GoodPair c (Int64ToBytes v, member) :=
  ⟨⟨hs, v, hlo, hhi, rfl⟩, hm⟩

theorem RangeByIndex_all_sorted_witness :
    ∃ s L, addAll stdConsts kZ [] [[(Int64ToBytes 3, mX), (Int64ToBytes (-2), mA)]] = some s ∧
      RangeByIndex stdConsts kZ s false 0 (-1) = some (flatPairs L) ∧
      L.Pairwise pairLt ∧ L.Nodup ∧
      ∀ sc member, (sc, member) ∈ L ↔ Score stdConsts kZ s member = some sc :=
  RangeByIndex_all_sorted stdConsts kZ [[(Int64ToBytes 3, mX), (Int64ToBytes (-2), mA)]]
    stdConsts_separated (by decide) (by decide)
    (fun call hcall => by
      rw [List.mem_singleton.1 hcall]
      decide)
    (fun call hcall p hp => by
      rw [List.mem_singleton.1 hcall] at hp
      rcases List.mem_cons.1 hp with h | h
      · rw [h]
        exact goodPair_of_encoding stdConsts 3 mX (by decide) (by decide) (by decide)
          (by decide)
      · rw [List.mem_singleton.1 h]
        exact goodPair_of_encoding stdConsts (-2) mA (by decide) (by decide) (by decide)
          (by decide))

/-- C6 (failing input): after `Add 35 b` (the last score byte is the separator byte) the
full ascending scan panics in the decoder; after `Add 1 a#b` it returns an empty score
and the member `b`; after `Add 1 x 2 x` it returns the member `x` twice. -/
theorem RangeByIndex_all_sorted_counterexample :
    (Add stdConsts kZ [] [Int64ToBytes 1, mX, Int64ToBytes 2, mX]).bind
        (fun r => RangeByIndex stdConsts kZ r.1 false 0 (-1))
      = some [Int64ToBytes 1, mX, Int64ToBytes 2, mX] ∧
    (Add stdConsts kZ [] [Int64ToBytes 35, mB]).bind
        (fun r => RangeByIndex stdConsts kZ r.1 false 0 (-1))
      = none ∧
    (Add stdConsts kZ [] [Int64ToBytes 1, [0x61, 0x23, 0x62]]).bind
        (fun r => RangeByIndex stdConsts kZ r.1 false 0 (-1))
      = some [[], mB] := by
  decide

/-! ## IncrBy -/

theorem Int64ToBytes_wrapInt64 (i : Int) : Int64ToBytes (wrapInt64 i) = Int64ToBytes i := by
  have h : wrapInt64 i % 18446744073709551616 = i % 18446744073709551616 := by
    unfold wrapInt64
    omega
  simp only [Int64ToBytes, h]

theorem BytesToInt64_Int64ToBytes_wrap (i : Int) :
    BytesToInt64 (Int64ToBytes i) = wrapInt64 i := by
  simp only [BytesToInt64, bytesToUint64_Int64ToBytes, wrapInt64]
  split_ifs <;> omega

theorem Int64ToBytes_add_decoded (a b : Int) :
    Int64ToBytes (BytesToInt64 (Int64ToBytes a) + b) = Int64ToBytes (wrapInt64 (a + b)) := by
  rw [BytesToInt64_Int64ToBytes_wrap, Int64ToBytes_wrapInt64]
  have h : (wrapInt64 a + b) % 18446744073709551616 = (a + b) % 18446744073709551616 := by
    unfold wrapInt64
    omega
  simp only [Int64ToBytes, h]

theorem IncrBy_absent (c : Consts) (key : Bytes) (s : Store) (member : Bytes) (incr : Int)
    (h : score c key s member = none) :
    IncrBy c key s member incr =
      (s.write [BatchOp.put (memberKey c key member) (Int64ToBytes incr),
                BatchOp.put (scoreKey c key member (Int64ToBytes incr)) []],
        Int64ToBytes incr) := by
  simp only [IncrBy, h]

theorem IncrBy_present (c : Consts) (key : Bytes) (s : Store) (member sc : Bytes) (incr : Int)
    (h : score c key s member = some sc) :
    IncrBy c key s member incr =
      (s.write [BatchOp.delete (scoreKey c key member sc),
                BatchOp.put (memberKey c key member) (Int64ToBytes (BytesToInt64 sc + incr)),
                BatchOp.put (scoreKey c key member (Int64ToBytes (BytesToInt64 sc + incr))) []],
        Int64ToBytes (BytesToInt64 sc + incr)) := by
  simp only [IncrBy, h]

theorem IncrBy_score (c : Consts) (key : Bytes) (s : Store) (member : Bytes) (incr : Int) :
    score c key (IncrBy c key s member incr).1 member = some (IncrBy c key s member incr).2 := by
  have hne : ∀ x : Bytes, scoreKey c key member x ≠ memberKey c key member :=
    fun x e => memberKey_ne_scoreKey c key member member x e.symm
  cases h : score c key s member with
  | none =>
    rw [IncrBy_absent c key s member incr h]
    simp [score, Store.write, Store.apply, Store.get_put, hne]
  | some sc =>
    rw [IncrBy_present c key s member sc incr h]
    simp [score, Store.write, Store.apply, Store.get_put, hne]

/-- C11: on a sorted set that does not hold the member, `IncrBy a` followed by
`IncrBy b` returns the encoding of the wrapped 64-bit sum `a + b`, and `Score` then
reads that same encoding, whose signed value is the wrapped sum. -/
theorem IncrBy_twice_adds (c : Consts) (key : Bytes) (s : Store) (member : Bytes)
    (a b : Int) (habs : Score c key s member = none) :
    (IncrBy c key (IncrBy c key s member a).1 member b).2
      = Int64ToBytes (wrapInt64 (a + b)) ∧
    Score c key (IncrBy c key (IncrBy c key s member a).1 member b).1 member
      = some (Int64ToBytes (wrapInt64 (a + b))) ∧
    BytesToInt64 (Int64ToBytes (wrapInt64 (a + b))) = wrapInt64 (a + b) := by
  have h1 : score c key (IncrBy c key s member a).1 member = some (Int64ToBytes a) := by
    rw [IncrBy_score, IncrBy_absent c key s member a habs]
  have h2 : (IncrBy c key (IncrBy c key s member a).1 member b).2
      = Int64ToBytes (wrapInt64 (a + b)) := by
    rw [IncrBy_present c key _ member _ b h1]
    exact Int64ToBytes_add_decoded a b
  refine ⟨h2, ?_, ?_⟩
  · unfold Score
    rw [IncrBy_score, h2]
  · rw [Int64ToBytes_wrapInt64, BytesToInt64_Int64ToBytes_wrap]

theorem IncrBy_twice_adds_witness :
    (IncrBy stdConsts kZ (IncrBy stdConsts kZ [] mA 9223372036854775807).1 mA 1).2
      = Int64ToBytes (wrapInt64 (9223372036854775807 + 1)) ∧
    Score stdConsts kZ (IncrBy stdConsts kZ (IncrBy stdConsts kZ [] mA 9223372036854775807).1 mA 1).1 mA
      = some (Int64ToBytes (wrapInt64 (9223372036854775807 + 1))) ∧
    BytesToInt64 (Int64ToBytes (wrapInt64 (9223372036854775807 + 1)))
      = wrapInt64 (9223372036854775807 + 1) :=
  IncrBy_twice_adds stdConsts kZ [] mA 9223372036854775807 1 rfl

/-- C12 (failing input): `IncrBy a 5` on the empty store writes the member-index and the
score-index entry and no existence record; `Add 5 a` on the empty store writes it. -/
theorem IncrBy_writes_no_existence_record :
    (IncrBy stdConsts kZ [] mA 5).1 =
      [(memberKey stdConsts kZ mA, Int64ToBytes 5),
       (scoreKey stdConsts kZ mA (Int64ToBytes 5), [])] ∧
    (IncrBy stdConsts kZ [] mA 5).1.get (zsetKey stdConsts kZ) = none ∧
    (Add stdConsts kZ [] [Int64ToBytes 5, mA]).map (fun r => r.1.get (zsetKey stdConsts kZ))
      = some (some zsetValue) := by
  decide

/-! ## Remove with a repeated member -/

/-- C13 (failing input): the set built by `Add 1 a` holds one member; `Remove a a`
returns 2 and leaves no member. -/
theorem Remove_repeated_member_counts_twice :
    (Add stdConsts kZ [] [Int64ToBytes 1, mA]).map (fun r => r.1)
      = some [(zsetKey stdConsts kZ, zsetValue),
              (memberKey stdConsts kZ mA, Int64ToBytes 1),
              (scoreKey stdConsts kZ mA (Int64ToBytes 1), [])] ∧
    (Add stdConsts kZ [] [Int64ToBytes 1, mA]).map (fun r => Remove stdConsts kZ r.1 [mA, mA])
      = some ([(zsetKey stdConsts kZ, zsetValue)], 2) ∧
    (Add stdConsts kZ [] [Int64ToBytes 1, mA]).map (fun r => Remove stdConsts kZ r.1 [mA])
      = some ([(zsetKey stdConsts kZ, zsetValue)], 1) := by
  decide

/-! ## Len -/

theorem visitAll_lenVisit (l : Store) (i n : Int) (hn : 0 ≤ n) (hn1 : n ≤ 100) :
    visitAll lenVisit l i n = if n + l.length ≤ 100 then n + l.length else -1 := by
  induction l generalizing i n with
  | nil => simp [visitAll, hn1]
  | cons e l ih =>
    obtain ⟨k, v⟩ := e
    by_cases h : n + 1 > 100
    · have hstep : lenVisit i k v n = (-1, true) := by simp [lenVisit, h]
      simp only [visitAll, hstep, List.length_cons]
      rw [if_neg]
      push_cast
      omega
    · have hstep : lenVisit i k v n = (n + 1, false) := by simp [lenVisit, h]
      simp only [visitAll, hstep, List.length_cons]
      rw [ih (i + 1) (n + 1) (by omega) (by omega)]
      push_cast
      have e1 : n + 1 + (l.length : Int) = n + ((l.length : Int) + 1) := by ring
      rw [e1]

/-- C16: `Len` is the number of score-index entries when there are at most 100 of them,
and -1 when there are more. -/
theorem Len_capped (c : Consts) (key : Bytes) (s : Store) :
    Len c key s =
      if (s.filter (fun e => hasPrefix e.1 (scoreKeyPrefix c key))).length ≤ 100
      then ((s.filter (fun e => hasPrefix e.1 (scoreKeyPrefix c key))).length : Int)
      else -1 := by
  simp only [Len, len, PrefixEnumerate, inDirection]
  rw [visitAll_lenVisit _ 0 0 (le_refl 0) (by decide)]
  simp only [zero_add]
  split_ifs with h1 h2 h2
  · rfl
  · omega
  · omega
  · rfl

/-! ## The windows of RangeByIndex and RangeByScore -/

theorem keepIndices_none {α : Type} (p : Int → Bool) (l : List α) (i : Int)
    (h : ∀ j, i ≤ j → p j = false) : keepIndices p l i = [] := by
  induction l generalizing i with
  | nil => rfl
  | cons e l ih =>
    simp only [keepIndices, h i (le_refl i)]
    exact ih (i + 1) (fun j hj => h j (by omega))

theorem decodeAll_cons_some (c : Consts) (e : Bytes × Bytes) (rest : Store)
    (p : Bytes × Bytes) (h : splitScoreKey c e.1 = some p) :
    decodeAll c (e :: rest) = (decodeAll c rest).map (fun ps => p :: ps) := by
  simp only [decodeAll, h]
  cases decodeAll c rest <;> rfl

theorem decodeAll_cons_none (c : Consts) (e : Bytes × Bytes) (rest : Store)
    (h : splitScoreKey c e.1 = none) : decodeAll c (e :: rest) = none := by
  simp only [decodeAll, h]

theorem visitAll_rangeByIndex (c : Consts) (start stop : Int) (l : Store) (i : Int)
    (acc : List Bytes) (hi : 0 ≤ i) :
    visitAll (rangeByIndexVisit c start stop) l i (some acc) =
      (decodeAll c (keepIndices
        (fun i => decide (max start 0 ≤ i) && (decide (stop = -1) || decide (i ≤ stop)))
        l i)).map (fun ps => acc ++ flatPairs ps) := by
  induction l generalizing i acc with
  | nil => simp [visitAll, keepIndices, decodeAll, flatPairs]
  | cons e l ih =>
    obtain ⟨k, v⟩ := e
    by_cases h1 : i < start
    · have hstep : rangeByIndexVisit c start stop i k v (some acc) = (some acc, false) := by
        simp [rangeByIndexVisit, h1]
      have hp : (decide (max start 0 ≤ i) && (decide (stop = -1) || decide (i ≤ stop))) = false := by
        have : ¬ max start 0 ≤ i := by omega
        simp [this]
      simp only [visitAll, hstep, keepIndices, hp]
      exact ih (i + 1) acc (by omega)
    · by_cases h2 : stop = -1 ∨ i ≤ stop
      · have hp : (decide (max start 0 ≤ i) && (decide (stop = -1) || decide (i ≤ stop))) = true := by
          have : max start 0 ≤ i := by omega
          simp [this, h2]
        simp only [keepIndices, hp, if_true]
        cases hd : splitScoreKey c k with
        | none =>
          have hstep : rangeByIndexVisit c start stop i k v (some acc) = (none, true) := by
            simp only [rangeByIndexVisit, hd]
            rw [if_neg h1, if_pos ⟨by omega, h2⟩]
          simp only [visitAll, hstep]
          rw [decodeAll_cons_none c _ _ hd]
          rfl
        | some p =>
          obtain ⟨sc, member⟩ := p
          have hstep : rangeByIndexVisit c start stop i k v (some acc)
              = (some ((acc ++ [sc]) ++ [member]), false) := by
            simp only [rangeByIndexVisit, hd]
            rw [if_neg h1, if_pos ⟨by omega, h2⟩]
          simp only [visitAll, hstep]
          rw [ih (i + 1) _ (by omega), decodeAll_cons_some c _ _ _ hd]
          cases decodeAll c (keepIndices _ l (i + 1)) <;> simp [flatPairs]
      · have hstep : rangeByIndexVisit c start stop i k v (some acc) = (some acc, true) := by
          simp only [rangeByIndexVisit]
          rw [if_neg h1, if_neg (fun h => h2 h.2)]
        have hnone : ∀ j, i ≤ j →
            (decide (max start 0 ≤ j) && (decide (stop = -1) || decide (j ≤ stop))) = false := by
          intro j hj
          have h3 : ¬ stop = -1 := fun e => h2 (Or.inl e)
          have h4 : ¬ j ≤ stop := fun e => h2 (Or.inr (by omega))
          simp [h3, h4]
        simp only [visitAll, hstep]
        rw [keepIndices_none _ _ _ hnone]
        simp [decodeAll, flatPairs]

/-- The window of `RangeByIndex`: it takes, in scan order, the entries whose visit index
`i` satisfies `max(start, 0) ≤ i` and (`stop = -1` or `i ≤ stop`) and returns each as
the decoder reads its key; it panics when the decoder panics on one of them. -/
theorem RangeByIndex_window (c : Consts) (key : Bytes) (s : Store) (high2low : Bool)
    (start stop : Int) :
    RangeByIndex c key s high2low start stop =
      (decodeAll c (indexWindow start stop
        (inDirection (directionOf high2low)
          (s.filter (fun e => hasPrefix e.1 (scoreKeyPrefix c key)))))).map flatPairs := by
  simp only [RangeByIndex, PrefixEnumerate, indexWindow]
  rw [visitAll_rangeByIndex c start stop _ 0 [] (le_refl 0)]
  simp

/-- C15 (failing input): after `Add 1 #b` the set holds the member `#b` and the full
ascending scan panics in the decoder; after `Add 1 a#b` the scan of the first entry
returns an empty score and the member `b`. -/
theorem RangeByIndex_window_counterexample :
    (Add stdConsts kZ [] [Int64ToBytes 1, mSepB]).bind
        (fun r => RangeByIndex stdConsts kZ r.1 false 0 (-1)) = none ∧
    (Add stdConsts kZ [] [Int64ToBytes 1, mSepB]).map
        (fun r => Score stdConsts kZ r.1 mSepB) = some (some (Int64ToBytes 1)) ∧
    (Add stdConsts kZ [] [Int64ToBytes 1, [0x61, 0x23, 0x62]]).bind
        (fun r => RangeByIndex stdConsts kZ r.1 true 0 0) = some [[], mB] := by
  decide

theorem visitAll_rangeByScore (c : Consts) (offset count : Int) (l : Store) (i : Int)
    (acc : List Bytes) :
    visitAll (rangeByScoreVisit c offset count) l i (some acc) =
      (decodeAll c (keepIndices
        (fun i => decide (offset ≤ i) && (decide (count = -1) || decide (i < wrapInt64 (offset + count))))
        l i)).map (fun ps => acc ++ flatPairs ps) := by
  induction l generalizing i acc with
  | nil => simp [visitAll, keepIndices, decodeAll, flatPairs]
  | cons e l ih =>
    obtain ⟨k, v⟩ := e
    by_cases h1 : i < offset
    · have hstep : rangeByScoreVisit c offset count i k v (some acc) = (some acc, false) := by
        simp [rangeByScoreVisit, h1]
      have hp : (decide (offset ≤ i) && (decide (count = -1) || decide (i < wrapInt64 (offset + count))))
          = false := by
        have : ¬ offset ≤ i := by omega
        simp [this]
      simp only [visitAll, hstep, keepIndices, hp]
      exact ih (i + 1) acc
    · by_cases h2 : count ≠ -1 ∧ i ≥ wrapInt64 (offset + count)
      · have hstep : rangeByScoreVisit c offset count i k v (some acc) = (some acc, true) := by
          simp only [rangeByScoreVisit]
          rw [if_neg h1, if_pos h2]
        have hnone : ∀ j, i ≤ j →
            (decide (offset ≤ j) && (decide (count = -1) || decide (j < wrapInt64 (offset + count))))
              = false := by
          intro j hj
          have h3 : ¬ count = -1 := h2.1
          have h4 : ¬ j < wrapInt64 (offset + count) := by omega
          simp [h3, h4]
        simp only [visitAll, hstep]
        rw [keepIndices_none _ _ _ hnone]
        simp [decodeAll, flatPairs]
      · have hp : (decide (offset ≤ i) && (decide (count = -1) || decide (i < wrapInt64 (offset + count))))
            = true := by
          have h3 : offset ≤ i := by omega
          have h4 : count = -1 ∨ i < wrapInt64 (offset + count) := by
            by_cases h5 : count = -1
            · exact Or.inl h5
            · exact Or.inr (by
                by_contra h6
                exact h2 ⟨h5, by omega⟩)
          simp [h3, h4]
        simp only [keepIndices, hp, if_true]
        cases hd : splitScoreKey c k with
        | none =>
          have hstep : rangeByScoreVisit c offset count i k v (some acc) = (none, true) := by
            simp only [rangeByScoreVisit, hd]
            rw [if_neg h1, if_neg h2]
          simp only [visitAll, hstep]
          rw [decodeAll_cons_none c _ _ hd]
          rfl
        | some p =>
          obtain ⟨sc, member⟩ := p
          have hstep : rangeByScoreVisit c offset count i k v (some acc)
              = (some ((acc ++ [sc]) ++ [member]), false) := by
            simp only [rangeByScoreVisit, hd]
            rw [if_neg h1, if_neg h2]
          simp only [visitAll, hstep]
          rw [ih (i + 1) _, decodeAll_cons_some c _ _ _ hd]
          cases decodeAll c (keepIndices _ l (i + 1)) <;> simp [flatPairs]

theorem keepIndices_drop {α : Type} (offset : Int) (l : List α) (i : Int) :
    keepIndices (fun i => decide (offset ≤ i)) l i = l.drop (offset - i).toNat := by
  induction l generalizing i with
  | nil => simp [keepIndices]
  | cons e l ih =>
    by_cases h : offset ≤ i
    · have h0 : (offset - i).toNat = 0 := by omega
      have h1 : (offset - (i + 1)).toNat = 0 := by omega
      simp only [keepIndices, h, decide_True, if_true, ih, h0, h1, List.drop_zero]
    · have h0 : (offset - i).toNat = (offset - (i + 1)).toNat + 1 := by omega
      simp only [keepIndices, h, decide_False, Bool.false_eq_true, if_false, ih, h0,
        List.drop_succ_cons]

theorem keepIndices_drop_take {α : Type} (offset count : Int) (l : List α) (i : Int) :
    keepIndices (fun i => decide (offset ≤ i) && decide (i < offset + count)) l i =
      (l.drop (offset - i).toNat).take (offset + count - max offset i).toNat := by
  induction l generalizing i with
  | nil => simp [keepIndices]
  | cons e l ih =>
    by_cases h : offset ≤ i
    · have h0 : (offset - i).toNat = 0 := by omega
      have h1 : (offset - (i + 1)).toNat = 0 := by omega
      by_cases h2 : i < offset + count
      · have h3 : (offset + count - max offset i).toNat
            = (offset + count - max offset (i + 1)).toNat + 1 := by omega
        simp only [keepIndices, h, h2, decide_True, Bool.and_self, if_true, ih, h0, h1,
          List.drop_zero, h3, List.take_succ_cons]
      · have h3 : (offset + count - max offset i).toNat = 0 := by omega
        have h4 : (offset + count - max offset (i + 1)).toNat = 0 := by omega
        simp [keepIndices, h, h2, ih, h0, h1, h3, h4]
        omega
    · have h0 : (offset - i).toNat = (offset - (i + 1)).toNat + 1 := by omega
      have h3 : max offset (i + 1) = max offset i := by omega
      simp only [keepIndices, h, decide_False, Bool.false_and, Bool.false_eq_true, if_false,
        ih, h0, List.drop_succ_cons, h3]

theorem keepIndices_scoreWindow (offset count : Int) (l : Store) (ho : 0 ≤ offset)
    (hw : wrapInt64 (offset + count) = offset + count) :
    keepIndices
      (fun i => decide (offset ≤ i) &&
        (decide (count = -1) || decide (i < wrapInt64 (offset + count))))
      l 0 = scoreWindow offset count l := by
  rw [hw]
  unfold scoreWindow
  by_cases h : count = -1
  · have e : (fun i : Int =>
        decide (offset ≤ i) && (decide (count = -1) || decide (i < offset + count)))
        = (fun i => decide (offset ≤ i)) := by
      funext i
      simp [h]
    rw [e, keepIndices_drop, if_pos h]
    simp
  · have e : (fun i : Int =>
        decide (offset ≤ i) && (decide (count = -1) || decide (i < offset + count)))
        = (fun i => decide (offset ≤ i) && decide (i < offset + count)) := by
      funext i
      simp [h]
    rw [e, keepIndices_drop_take, if_neg h]
    have h1 : (offset + count - max offset 0).toNat = count.toNat := by omega
    rw [h1]
    simp

/-- The window of `RangeByScore` while `offset+count` stays inside the 64-bit range: the
entries the scan of `[prefix+min, prefix+max+MAXBYTE]` visits, the first `offset` of them
skipped, at most `count` kept (all when `count = -1`), each read by the decoder; a panic
of the decoder on a kept entry is a panic of the call. -/
theorem RangeByScore_window (c : Consts) (key : Bytes) (s : Store) (high2low : Bool)
    (min max : Bytes) (offset count : Int) (ho : 0 ≤ offset)
    (hlo : -9223372036854775808 ≤ offset + count)
    (hhi : offset + count < 9223372036854775808) :
    RangeByScore c key s high2low min max offset count =
      (decodeAll c (scoreWindow offset count
        (inDirection (directionOf high2low)
          (s.filter (fun e =>
            decide (bytesCompare (joinBytes [scoreKeyPrefix c key, min]) e.1 ≤ 0) &&
            decide (bytesCompare e.1 (joinBytes [scoreKeyPrefix c key, max, [MAXBYTE]]) ≤ 0)))))).map
        flatPairs := by
  have hw : wrapInt64 (offset + count) = offset + count := by
    unfold wrapInt64
    omega
  simp only [RangeByScore, Enumerate]
  rw [visitAll_rangeByScore, keepIndices_scoreWindow _ _ _ ho hw]
  simp

theorem RangeByScore_window_witness :
    RangeByScore stdConsts kZ storeBA true [] [0xFF] 1 1 = some [Int64ToBytes 1, mB] :=
  (RangeByScore_window stdConsts kZ storeBA true [] [0xFF] 1 1 (by decide) (by decide)
    (by decide)).trans (by decide)

/-- C14 (failing input): after `Add 1 #b` the scan over the whole score index, with
offset 0 and count -1, visits the one entry and panics in the decoder. Apart from that,
on the set of `Add 1 b 2 a` the scan with offset 1 returns `(2, a)` for count -1 and
nothing for the largest count, because `offset+count` wraps around. -/
theorem RangeByScore_window_counterexample :
    (Add stdConsts kZ [] [Int64ToBytes 1, mSepB]).bind
        (fun r => RangeByScore stdConsts kZ r.1 false [] [0xFF] 0 (-1)) = none ∧
    (Add stdConsts kZ [] [Int64ToBytes 1, mSepB]).map
        (fun r => (r.1.filter (fun e =>
            decide (bytesCompare (joinBytes [scoreKeyPrefix stdConsts kZ, []]) e.1 ≤ 0) &&
            decide (bytesCompare e.1
              (joinBytes [scoreKeyPrefix stdConsts kZ, [0xFF], [MAXBYTE]]) ≤ 0))).length)
      = some 1 ∧
    RangeByScore stdConsts kZ storeBA false [] [0xFF] 1 (-1) = some [Int64ToBytes 2, mA] ∧
    RangeByScore stdConsts kZ storeBA false [] [0xFF] 1 9223372036854775807 = some [] := by
  decide

/-! ## HMSET -/

/-- C17: with an odd number of arguments after the key `OnHMSET` replies with an error,
leaves the server (registry and store) as it was and does nothing to the registry or to
a handle; with an even number it gets the handle from the registry, issues one `Set`
with all the arguments and replies `OK`. -/
theorem OnHMSET_arity (hashSet : LevelHash → List Bytes → Store → Store)
    (server : GoRedisServer) (name key : Bytes) (keyvals : List Bytes) :
    (keyvals.length % 2 ≠ 0 →
      OnHMSET hashSet server ⟨name :: key :: keyvals⟩
        = some (server, Reply.ErrorReply "Bad field/value paires", [])) ∧
    (keyvals.length % 2 = 0 →
      OnHMSET hashSet server ⟨name :: key :: keyvals⟩
        = some
          (match lookupHash server.hashtable key with
            | some hash =>
              (⟨server.hashtable, hashSet hash keyvals server.db⟩, Reply.StatusReply "OK",
                [Effect.hashtableLookup key, Effect.hashSet hash keyvals])
            | none =>
              (⟨(key, ⟨hashKeyPrefix ++ key⟩) :: server.hashtable,
                  hashSet ⟨hashKeyPrefix ++ key⟩ keyvals server.db⟩,
                Reply.StatusReply "OK",
                [Effect.hashtableLookup key,
                  Effect.hashtableInsert key ⟨hashKeyPrefix ++ key⟩,
                  Effect.hashSet ⟨hashKeyPrefix ++ key⟩ keyvals]))) := by
  constructor
  · intro h
    simp [OnHMSET, h]
  · intro h
    simp only [OnHMSET, Command.StringAtIndex, hashByKey, List.length_cons, List.drop_succ_cons,
      List.drop_zero, List.getD_cons_succ, List.getD_cons_zero]
    rw [if_neg (by omega), if_neg (by omega)]
    cases lookupHash server.hashtable key <;> rfl

theorem OnHMSET_arity_witness :
    OnHMSET sampleHashSet ⟨[], []⟩ ⟨[kZ, kY, mA, mB, mX]⟩
      = some (⟨[], []⟩, Reply.ErrorReply "Bad field/value paires", []) ∧
    OnHMSET sampleHashSet ⟨[], []⟩ ⟨[kZ, kY, mA, mB]⟩
      = some (⟨[(kY, ⟨hashKeyPrefix ++ kY⟩)], [(hashKeyPrefix ++ kY ++ mA, mB)]⟩,
          Reply.StatusReply "OK",
          [Effect.hashtableLookup kY, Effect.hashtableInsert kY ⟨hashKeyPrefix ++ kY⟩,
            Effect.hashSet ⟨hashKeyPrefix ++ kY⟩ [mA, mB]]) :=
  ⟨(OnHMSET_arity sampleHashSet ⟨[], []⟩ kZ kY [mA, mB, mX]).1 (by decide),
    (OnHMSET_arity sampleHashSet ⟨[], []⟩ kZ kY [mA, mB]).2 (by decide)⟩

/-! ## Isolation of logical keys -/

theorem hasPrefix_key_delimiter {r : Nat} {k1 k2 : Bytes} (rest : Bytes) (h1 : r ∉ k1)
    (h2 : r ∉ k2) (h : hasPrefix (k2 ++ r :: rest) (k1 ++ [r]) = true) : k1 = k2 := by
  induction k1 generalizing k2 with
  | nil =>
    cases k2 with
    | nil => rfl
    | cons y k2 =>
      simp only [List.nil_append, List.cons_append, hasPrefix, Bool.and_eq_true,
        beq_iff_eq] at h
      exact absurd (by rw [h.1]; exact List.mem_cons_self _ _) h2
  | cons x k1 ih =>
    cases k2 with
    | nil =>
      simp only [List.nil_append, List.cons_append, hasPrefix, Bool.and_eq_true,
        beq_iff_eq] at h
      exact absurd (by rw [h.1]; exact List.mem_cons_self _ _) h1
    | cons y k2 =>
      simp only [List.cons_append, hasPrefix, Bool.and_eq_true, beq_iff_eq] at h
      rw [h.1.symm, ih (fun e => h1 (List.mem_cons_of_mem _ e))
        (fun e => h2 (List.mem_cons_of_mem _ e)) h.2]

theorem dropPrefix_not_prefix {c : Consts} {r : Nat} {k1 k2 : Bytes} (rest : Bytes)
    (hR : c.SEP_RIGHT = [r]) (h1 : r ∉ k1) (h2 : r ∉ k2) (hne : k1 ≠ k2) :
    hasPrefix (dropPrefix c k2 ++ rest) (dropPrefix c k1) = false := by
  by_contra h
  simp only [Bool.not_eq_false] at h
  rw [dropPrefix_eq, dropPrefix_eq, hR] at h
  simp only [List.append_assoc, hasPrefix_append_left, List.singleton_append] at h
  exact hne (hasPrefix_key_delimiter rest h1 h2 h)

theorem zsetKey_not_dropPrefix {c : Consts} (hc : c.Separated) (k1 k2 : Bytes) :
    hasPrefix (zsetKey c k2) (dropPrefix c k1) = false := by
  by_contra h
  simp only [Bool.not_eq_false] at h
  obtain ⟨r, hr⟩ := hasPrefix_eq_append h
  rw [zsetKey_eq, dropPrefix_eq] at hr
  simp only [List.append_assoc] at hr
  exact hc _ _ hr

theorem zsetKey_inj {c : Consts} {k1 k2 : Bytes} (h : zsetKey c k1 = zsetKey c k2) :
    k1 = k2 := by
  rw [zsetKey_eq, zsetKey_eq] at h
  exact List.append_cancel_right (List.append_cancel_left (List.append_cancel_left h))

theorem zsetKey_ne_of_dropPrefix {c : Consts} (hc : c.Separated) (k1 k2 rest : Bytes) :
    zsetKey c k1 ≠ dropPrefix c k2 ++ rest := by
  rw [zsetKey_eq, dropPrefix_eq]
  simp only [List.append_assoc]
  exact hc _ _

theorem Store.get_write_deletes (s : Store) (ks : List Bytes) (k : Bytes) (h : k ∉ ks) :
    (s.write (ks.map BatchOp.delete)).get k = s.get k := by
  induction ks generalizing s with
  | nil => rfl
  | cons k0 ks ih =>
    simp only [List.mem_cons, not_or] at h
    simp only [Store.write, List.map_cons, List.foldl_cons, Store.apply] at ih ⊢
    rw [ih _ h.2, Store.get_delete, if_neg (fun e => h.1 e.symm)]

theorem Drop_get_other (c : Consts) (key : Bytes) (s : Store) (k : Bytes)
    (hp : hasPrefix k (dropPrefix c key) = false) (hz : k ≠ zsetKey c key) :
    (Drop c key s).1.get k = s.get k := by
  simp only [Drop, PrefixEnumerate, inDirection, visitAll_dropVisit, List.nil_append,
    Store.write_append]
  simp only [Store.write, List.foldl_cons, List.foldl_nil, Store.apply]
  rw [Store.get_delete, if_neg (fun e => hz e.symm)]
  apply Store.get_write_deletes
  intro hk
  obtain ⟨e, he, hek⟩ := List.mem_map.1 hk
  have h2 := (List.mem_filter.1 he).2
  rw [hek, hp] at h2
  exact Bool.noConfusion h2

theorem Drop_mem_other (c : Consts) (key : Bytes) (s : Store) (e : Bytes × Bytes)
    (he : e ∈ s) (hp : hasPrefix e.1 (dropPrefix c key) = false) (hz : e.1 ≠ zsetKey c key) :
    e ∈ (Drop c key s).1 := by
  simp only [Drop, PrefixEnumerate, inDirection, visitAll_dropVisit, List.nil_append,
    Store.write_append]
  simp only [Store.write, List.foldl_cons, List.foldl_nil, Store.apply]
  rw [Store.mem_delete]
  refine ⟨Store.mem_write_deletes.2 ⟨he, ?_⟩, hz⟩
  intro hk
  obtain ⟨e1, he1, hek⟩ := List.mem_map.1 hk
  have h2 := (List.mem_filter.1 he1).2
  rw [hek, hp] at h2
  exact Bool.noConfusion h2

/-- C18: for two distinct logical keys without the right delimiter byte, no member-index
or score-index key of the second starts with the prefix of the first, and `Drop` on the
first leaves the member-index entries, the score-index entries and the existence record
of the second as they were. -/
theorem Drop_isolates_keys (c : Consts) (k1 k2 : Bytes) (r : Nat) (s : Store)
    (hc : c.Separated) (hR : c.SEP_RIGHT = [r]) (h1 : r ∉ k1) (h2 : r ∉ k2) (hne : k1 ≠ k2) :
    (∀ member, hasPrefix (memberKey c k2 member) (dropPrefix c k1) = false) ∧
    (∀ member sc, hasPrefix (scoreKey c k2 member sc) (dropPrefix c k1) = false) ∧
    (∀ member, (Drop c k1 s).1.get (memberKey c k2 member) = s.get (memberKey c k2 member)) ∧
    (∀ member sc,
      (Drop c k1 s).1.get (scoreKey c k2 member sc) = s.get (scoreKey c k2 member sc)) ∧
    (Drop c k1 s).1.get (zsetKey c k2) = s.get (zsetKey c k2) ∧
    (∀ e ∈ s, (hasPrefix e.1 (dropPrefix c k2) = true ∨ e.1 = zsetKey c k2) →
      e ∈ (Drop c k1 s).1) := by
  have hm : ∀ member, hasPrefix (memberKey c k2 member) (dropPrefix c k1) = false := by
    intro member
    rw [memberKey_eq]
    exact dropPrefix_not_prefix _ hR h1 h2 hne
  have hs : ∀ member sc, hasPrefix (scoreKey c k2 member sc) (dropPrefix c k1) = false := by
    intro member sc
    rw [scoreKey_eq_drop]
    exact dropPrefix_not_prefix _ hR h1 h2 hne
  have hzz : zsetKey c k2 ≠ zsetKey c k1 := fun e => hne (zsetKey_inj e).symm
  refine ⟨hm, hs, ?_, ?_, ?_, ?_⟩
  · intro member
    apply Drop_get_other c k1 s _ (hm member)
    rw [memberKey_eq]
    exact fun e => zsetKey_ne_of_dropPrefix hc k1 k2 _ e.symm
  · intro member sc
    apply Drop_get_other c k1 s _ (hs member sc)
    rw [scoreKey_eq_drop]
    exact fun e => zsetKey_ne_of_dropPrefix hc k1 k2 _ e.symm
  · exact Drop_get_other c k1 s _ (zsetKey_not_dropPrefix hc k1 k2) hzz
  · intro e he hk
    rcases hk with hk | hk
    · obtain ⟨rest, hrest⟩ := hasPrefix_eq_append hk
      apply Drop_mem_other c k1 s e he
      · rw [hrest]
        exact dropPrefix_not_prefix _ hR h1 h2 hne
      · rw [hrest]
        exact fun e => zsetKey_ne_of_dropPrefix hc k1 k2 _ e.symm
    · apply Drop_mem_other c k1 s e he
      · rw [hk]
        exact zsetKey_not_dropPrefix hc k1 k2
      · rw [hk]
        exact hzz

theorem Drop_isolates_keys_witness :
    (∀ member, hasPrefix (memberKey stdConsts kY member) (dropPrefix stdConsts kZ) = false) ∧
    (∀ member sc,
      hasPrefix (scoreKey stdConsts kY member sc) (dropPrefix stdConsts kZ) = false) ∧
    (∀ member, (Drop stdConsts kZ storeZY).1.get (memberKey stdConsts kY member)
      = storeZY.get (memberKey stdConsts kY member)) ∧
    (∀ member sc, (Drop stdConsts kZ storeZY).1.get (scoreKey stdConsts kY member sc)
      = storeZY.get (scoreKey stdConsts kY member sc)) ∧
    (Drop stdConsts kZ storeZY).1.get (zsetKey stdConsts kY) = storeZY.get (zsetKey stdConsts kY) ∧
    (∀ e ∈ storeZY,
      (hasPrefix e.1 (dropPrefix stdConsts kY) = true ∨ e.1 = zsetKey stdConsts kY) →
        e ∈ (Drop stdConsts kZ storeZY).1) :=
  Drop_isolates_keys stdConsts kZ kY 0x5d storeZY stdConsts_separated rfl (by decide)
    (by decide) (by decide)

/-! ## When the decoder panics -/

theorem exists_last_occurrence {b : Nat} {t : Bytes} (h : b ∈ t) :
    ∃ u v, t = u ++ b :: v ∧ b ∉ v := by
  induction t with
  | nil => exact absurd h (List.not_mem_nil _)
  | cons x t ih =>
    by_cases hb : b ∈ t
    · obtain ⟨u, v, e, hv⟩ := ih hb
      exact ⟨x :: u, v, by rw [e]; rfl, hv⟩
    · rcases List.mem_cons.1 h with h1 | h1
      · exact ⟨[], t, by rw [h1]; rfl, hb⟩
      · exact absurd h1 hb

theorem sep_trichotomy (b : Nat) (u : Bytes) :
    b ∉ u ∨ (∃ u1, u = u1 ++ [b]) ∨
      (∃ u1 y u3, u = u1 ++ b :: y :: u3 ∧ b ≠ y ∧ b ∉ u3) := by
  by_cases h : b ∈ u
  · obtain ⟨a, w, e, hw⟩ := exists_last_occurrence h
    cases w with
    | nil => exact Or.inr (Or.inl ⟨a, e⟩)
    | cons y u3 =>
      simp only [List.mem_cons, not_or] at hw
      exact Or.inr (Or.inr ⟨a, y, u3, e, hw.1, hw.2⟩)
  · exact Or.inl h

theorem splitScoreKey_adjacent (c : Consts) (p v : Bytes) (hv : c.SEP ∉ v) :
    splitScoreKey c (p ++ [c.SEP] ++ (c.SEP :: v)) = none := by
  have hpos2 : lastIndex (p ++ [c.SEP] ++ (c.SEP :: v)) c.SEP
      = ((p ++ [c.SEP]).length : Nat) := lastIndex_append_sep _ _ _ hv
  have hhead : goSlice (p ++ [c.SEP] ++ (c.SEP :: v)) 0 ((p ++ [c.SEP]).length : Nat)
      = some (p ++ [c.SEP]) := by
    have := goSlice_middle [] (p ++ [c.SEP]) (c.SEP :: v)
    simpa using this
  have hpos1 : lastIndex (p ++ [c.SEP]) c.SEP = (p.length : Nat) :=
    lastIndex_append_sep p [] c.SEP (List.not_mem_nil _)
  have hmem : goSlice (p ++ [c.SEP] ++ (c.SEP :: v)) (((p ++ [c.SEP]).length : Nat) + 1)
      ((p ++ [c.SEP] ++ (c.SEP :: v)).length : Nat) = some v := by
    have := goSlice_middle (p ++ [c.SEP] ++ [c.SEP]) v []
    simp only [List.append_nil, List.append_assoc, List.singleton_append, List.length_append,
      List.length_cons, List.length_nil, Nat.cast_add, Nat.cast_one] at this ⊢
    rw [← this]
    congr 1
    push_cast
    ring
  have hsc : goSlice (p ++ [c.SEP] ++ (c.SEP :: v)) ((p.length : Nat) + 1 + 1)
      ((p ++ [c.SEP]).length : Nat) = none := by
    unfold goSlice
    rw [if_neg]
    simp only [List.length_append, List.length_cons, List.length_nil, Nat.cast_add,
      Nat.cast_one]
    omega
  unfold splitScoreKey
  simp only [hpos2, hhead, hpos1, hmem, hsc]

theorem scoreKey_eq_sign (c : Consts) (key member sc : Bytes) :
    scoreKey c key member sc =
      joinStringBytes [c.ZSET_PREFIX, c.SEP_LEFT, key, c.SEP_RIGHT, [0x73]] ++
        (c.SEP :: (if BytesToInt64 sc < 0 then 0x30 else 0x31) :: (sc ++ c.SEP :: member)) := by
  simp only [scoreKey, joinStringBytes]
  split_ifs <;> simp

theorem splitScoreKey_cases (c : Consts) (p u v : Bytes) (x : Nat) (hx : c.SEP ≠ x)
    (hv : c.SEP ∉ v) :
    (c.SEP ∉ u ∧ splitScoreKey c (p ++ c.SEP :: x :: (u ++ c.SEP :: v)) = some (u, v)) ∨
    ((∃ u1, u = u1 ++ [c.SEP]) ∧
      splitScoreKey c (p ++ c.SEP :: x :: (u ++ c.SEP :: v)) = none) ∨
    (∃ u1 y u3, u = u1 ++ c.SEP :: y :: u3 ∧
      splitScoreKey c (p ++ c.SEP :: x :: (u ++ c.SEP :: v)) = some (u3, v)) := by
  rcases sep_trichotomy c.SEP u with h | ⟨u1, e⟩ | ⟨u1, y, u3, e, hy, hu3⟩
  · refine Or.inl ⟨h, ?_⟩
    have := splitScoreKey_parts c.SEP c rfl p u v x hx h hv
    simpa using this
  · refine Or.inr (Or.inl ⟨⟨u1, e⟩, ?_⟩)
    have := splitScoreKey_adjacent c (p ++ c.SEP :: x :: u1) v hv
    rw [e]
    simpa using this
  · refine Or.inr (Or.inr ⟨u1, y, u3, e, ?_⟩)
    have := splitScoreKey_parts c.SEP c rfl (p ++ c.SEP :: x :: u1) u3 v y hy hu3 hv
    rw [e]
    simpa using this

theorem sign_ne_sep {c : Consts} (h0 : c.SEP ≠ 0x30) (h1 : c.SEP ≠ 0x31) (sc : Bytes) :
    c.SEP ≠ (if BytesToInt64 sc < 0 then 0x30 else 0x31) := by
  split_ifs <;> assumption

/-- When the decoder panics: on a key the encoder wrote, it panics exactly when the
score, the separator and the member, read as one string, hold two adjacent separator
bytes followed by a tail without a separator byte; in every other case all slice bounds
are in range. -/
theorem splitScoreKey_panics_iff (c : Consts) (key member sc : Bytes)
    (h0 : c.SEP ≠ 0x30) (h1 : c.SEP ≠ 0x31) :
    splitScoreKey c (scoreKey c key member sc) = none ↔
      ∃ u v, sc ++ c.SEP :: member = u ++ c.SEP :: c.SEP :: v ∧ c.SEP ∉ v := by
  rw [scoreKey_eq_sign]
  constructor
  · intro hnone
    obtain ⟨u, v, e, hv⟩ := exists_last_occurrence
      (show c.SEP ∈ sc ++ c.SEP :: member by simp)
    rw [e] at hnone
    rcases splitScoreKey_cases c _ u v _ (sign_ne_sep h0 h1 sc) hv with
      ⟨_, h⟩ | ⟨⟨u1, eu⟩, _⟩ | ⟨_, _, _, _, h⟩
    · rw [h] at hnone
      exact Option.noConfusion hnone
    · exact ⟨u1, v, by rw [e, eu]; simp, hv⟩
    · rw [h] at hnone
      exact Option.noConfusion hnone
  · rintro ⟨u, v, e, hv⟩
    rw [e]
    have := splitScoreKey_adjacent c
      (joinStringBytes [c.ZSET_PREFIX, c.SEP_LEFT, key, c.SEP_RIGHT, [0x73]] ++
        c.SEP :: (if BytesToInt64 sc < 0 then 0x30 else 0x31) :: u) v hv
    simpa using this

theorem splitScoreKey_panics_iff_witness :
    splitScoreKey stdConsts (scoreKey stdConsts kZ mSepB (Int64ToBytes 1)) = none ↔
      ∃ u v, Int64ToBytes 1 ++ stdConsts.SEP :: mSepB = u ++ stdConsts.SEP :: stdConsts.SEP :: v ∧
        stdConsts.SEP ∉ v :=
  splitScoreKey_panics_iff stdConsts kZ mSepB (Int64ToBytes 1) (by decide) (by decide)

/-- C19 (failing input): the decoder panics on the key of the score 35, whose last byte
is the separator byte, and on the key of the member `#b`. -/
theorem splitScoreKey_panics_counterexample :
    splitScoreKey stdConsts (scoreKey stdConsts kZ mB (Int64ToBytes 35)) = none ∧
    splitScoreKey stdConsts (scoreKey stdConsts kZ mSepB (Int64ToBytes 1)) = none := by
  decide

/-! ## The round trip for encoded scores -/

theorem splitScoreKey_score_with_sep (c : Consts) (key member sc : Bytes)
    (h0 : c.SEP ≠ 0x30) (h1 : c.SEP ≠ 0x31) (hm : c.SEP ∉ member) (hs : c.SEP ∈ sc) :
    splitScoreKey c (scoreKey c key member sc) ≠ some (sc, member) := by
  rw [scoreKey_eq_sign]
  rcases splitScoreKey_cases c
      (joinStringBytes [c.ZSET_PREFIX, c.SEP_LEFT, key, c.SEP_RIGHT, [0x73]]) sc member _
      (sign_ne_sep h0 h1 sc) hm with
    ⟨h, _⟩ | ⟨_, h⟩ | ⟨u1, y, u3, e, h⟩
  · exact absurd hs h
  · rw [h]
    exact fun e => Option.noConfusion e
  · rw [h]
    intro e2
    have e3 : u3 = sc := by
      simp only [Option.some.injEq, Prod.mk.injEq] at e2
      exact e2.1
    have e4 := congrArg List.length e
    rw [← e3] at e4
    simp only [List.length_append, List.length_cons] at e4
    omega

/-- The round trip of an encoded score: for a member without the separator byte, the
decoder gives back the encoded signed 64-bit score and the member exactly when the eight
score bytes hold no separator byte. -/
theorem splitScoreKey_encoded_score_iff (c : Consts) (key member : Bytes) (v : Int)
    (h0 : c.SEP ≠ 0x30) (h1 : c.SEP ≠ 0x31) (hm : c.SEP ∉ member) :
    splitScoreKey c (scoreKey c key member (Int64ToBytes v)) = some (Int64ToBytes v, member)
      ↔ c.SEP ∉ Int64ToBytes v := by
  constructor
  · intro h hs
    exact splitScoreKey_score_with_sep c key member _ h0 h1 hm hs h
  · intro hs
    exact splitScoreKey_of_sep_free c key member _ h0 h1 hs hm

theorem splitScoreKey_encoded_score_iff_witness :
    splitScoreKey stdConsts (scoreKey stdConsts kZ mA (Int64ToBytes 3))
        = some (Int64ToBytes 3, mA)
      ↔ stdConsts.SEP ∉ Int64ToBytes 3 :=
  splitScoreKey_encoded_score_iff stdConsts kZ mA 3 (by decide) (by decide) (by decide)

/-- C20 (failing input): with the member `b`, the score 35 makes the decoder panic and
the score 8960, whose seventh byte is the separator byte, is decoded as the empty
score. -/
theorem splitScoreKey_encoded_score_counterexample :
    stdConsts.SEP ∉ mB ∧
    splitScoreKey stdConsts (scoreKey stdConsts kZ mB (Int64ToBytes 35)) = none ∧
    Int64ToBytes 8960 = [0, 0, 0, 0, 0, 0, 0x23, 0] ∧
    splitScoreKey stdConsts (scoreKey stdConsts kZ mB (Int64ToBytes 8960)) = some ([], mB) := by
  decide

end GoRedis
